import Mathlib

/-!
# Keyword-based document search: TF-IDF ranking, sequential and batched

A shallow embedding of `search.cpp` (sequential pipeline) and `search-p.cpp`
(batched pipeline) together with theorems about the text normaliser, the
term-frequency table, the ranking comparator, the ranking sort and the top-N
selection.

Modelling conventions.

* `std::string` is `String`; `for (char c : text)` is a left fold over the
  characters. `isalpha`, `tolower` and `isspace` are those of the "C" locale.
* A `double` is the rational it denotes. Every division, multiplication and
  addition of doubles in the source is the exact operation followed by a
  rounding `fl : ℚ → ℚ`, a parameter of every definition that reaches one.
  `roundDouble` is the rounding of IEEE 754 binary64, to the nearest double with
  ties to even, on an unbounded exponent range (no overflow, no underflow), and
  `fun x => x` is exact arithmetic. Each multiplication and each addition rounds
  on its own: no fused multiply-add, no extended precision. The count
  `tf[word]++` stays below `2^53` and is exact (`roundDouble_natCast`), as is the
  conversion of `totalWords` to a double.
* The library function `log10` is a parameter `log10 : ℚ → ℚ` of every definition
  that reaches it; it receives the quotient `totalDocuments / df` and stands for
  the library function applied to that quotient as a double.
* `unordered_set<string>` and `unordered_map<string, T>` are association lists
  in insertion order; the code only looks keys up and rewrites values in place,
  so the iteration order never reaches a result.
* `int` is `Int`, container sizes are `Nat`; corpora are assumed to have fewer
  than `2^31` documents, so no `int` wraps.
* `preProcessText`, `calculateTF`, `calculateIDF` and `calculateTFIDFScore` are
  textually the same in both source files and are embedded once.
* The worker threads of `search-p.cpp` are run one after the other in spawn
  order; they write disjoint index ranges of pre-sized vectors.
* `operator<` of `std::string` is the lexicographic order of `String`.
-/

/-! ## Data model -/

/-- A corpus entry `pair<string, string>`: document identifier and text. -/
abbrev Document := String × String

/-- An entry `pair<double, pair<int, string>>` of the `scores` vector:
score, 1-based ordinal, document identifier. -/
abbrev ScoredResult := ℚ × (Int × String)

/-- An `unordered_map<string, double>`. -/
abbrev TermTable := List (String × ℚ)

/-! ## Double arithmetic -/

/-- The number of binary digits of `n`, found in at most `fuel` halvings. -/
def bitLength : Nat → Nat → Nat
  | 0, _ => 0
  | fuel + 1, n => if n = 0 then 0 else bitLength fuel (n / 2) + 1

/-- The power `2 ^ e` for an integer exponent. -/
def pow2 (e : Int) : ℚ :=
  if 0 ≤ e then ((2 ^ e.toNat : Nat) : ℚ) else 1 / ((2 ^ (-e).toNat : Nat) : ℚ)

/-- Rounding to the nearest integer, a tie going to the even neighbour. -/
def roundHalfEven (x : ℚ) : Int :=
  if x - (⌊x⌋ : ℚ) < 1 / 2 then ⌊x⌋
  else if 1 / 2 < x - (⌊x⌋ : ℚ) then ⌊x⌋ + 1
  else if ⌊x⌋ % 2 = 0 then ⌊x⌋ else ⌊x⌋ + 1

/-- The binary exponent of a rational `x ≠ 0`: the `l` with
`2 ^ l ≤ |x| < 2 ^ (l + 1)`. The difference of the digit counts of numerator
and denominator is `l` or `l + 1`. -/
def binaryExponent (x : ℚ) : Int :=
  if pow2 ((bitLength x.num.natAbs x.num.natAbs : Int) - (bitLength x.den x.den : Int)) ≤ |x| then
    (bitLength x.num.natAbs x.num.natAbs : Int) - (bitLength x.den x.den : Int)
  else (bitLength x.num.natAbs x.num.natAbs : Int) - (bitLength x.den x.den : Int) - 1

/-- The rounding of IEEE 754 binary64 arithmetic: the nearest rational with a
53-bit significand, ties to the even significand. -/
def roundDouble (x : ℚ) : ℚ :=
  if x = 0 then 0
  else (roundHalfEven (x / pow2 (binaryExponent x - 52)) : ℚ) * pow2 (binaryExponent x - 52)

/-! ## Character classes of the "C" locale -/

/-- The function `isalpha`: ASCII letters. -/
def isalpha (c : Char) : Bool := c.isAlpha

/-- The function `tolower`: ASCII upper case to lower case, identity elsewhere. -/
def tolower (c : Char) : Char := c.toLower

/-- The function `isspace`: space, `\t`, `\n`, `\v`, `\f`, `\r`. -/
def isspace (c : Char) : Bool :=
  c.toNat = 32 || (9 ≤ c.toNat && c.toNat ≤ 13)

/-! ## Hash containers as association lists -/

/-- The test `m.find(k) != m.end()` together with `m.at(k)`. -/
def mapFind {β : Type} : List (String × β) → String → Option β
  | [], _ => none
  | (k', v) :: rest, k => if k' = k then some v else mapFind rest k

/-- The statement `m[k]++`: a missing key is value-initialised to zero first. -/
def mapIncr {β : Type} [Zero β] [One β] [Add β] : List (String × β) → String → List (String × β)
  | [], k => [(k, 0 + 1)]
  | (k', v) :: rest, k => if k' = k then (k', v + 1) :: rest else (k', v) :: mapIncr rest k

/-- The statement `m[k] = v`. -/
def mapAssign {β : Type} : List (String × β) → String → β → List (String × β)
  | [], k, v => [(k, v)]
  | (k', v') :: rest, k, v => if k' = k then (k', v) :: rest else (k', v') :: mapAssign rest k v

/-- The call `s.insert(w)` on an `unordered_set<string>`. -/
def setInsert (s : List String) (w : String) : List String :=
  if w ∈ s then s else s ++ [w]

/-! ## Stream extraction `while (ss >> word)` -/

/-- One character of the extraction loop; the state is the words read so far and
the word being read. Whitespace ends the current word. -/
def extractStep (st : List String × String) (c : Char) : List String × String :=
  if isspace c then
    (if st.2 ≠ "" then (st.1 ++ [st.2], "") else st)
  else (st.1, st.2.push c)

/-- The words that `while (ss >> word)` yields on a stream over `text`. -/
def extractWords (text : String) : List String :=
  let st := text.toList.foldl extractStep ([], "")
  if st.2 ≠ "" then st.1 ++ [st.2] else st.1

/-! ## `preProcessText` (search.cpp 86-108, search-p.cpp 91-112) -/

/-- The filter `dictionary.find(word) != end && stopwords.find(word) == end`
followed by `cleanedText += word + " "`. -/
def flushWord (dictionary stopwords : List String) (cleanedText word : String) : String :=
  if word ∈ dictionary ∧ word ∉ stopwords then cleanedText ++ (word ++ " ") else cleanedText

/-- The body of `for (char c : text)`; the state is `(cleanedText, word)`. -/
def preProcessStep (dictionary stopwords : List String) (st : String × String) (c : Char) :
    String × String :=
  if isalpha c then (st.1, st.2.push (tolower c))
  else if st.2 ≠ "" then (flushWord dictionary stopwords st.1 st.2, "")
  else st

/-- The function `preProcessText`. -/
def preProcessText (text : String) (dictionary stopwords : List String) : String :=
  let st := text.toList.foldl (preProcessStep dictionary stopwords) ("", "")
  if st.2 ≠ "" then flushWord dictionary stopwords st.1 st.2 else st.1

/-! ## `calculateTF` (search.cpp 111-129) -/

/-- The counting loop of `calculateTF`: `tf[word]++; totalWords++`. -/
def countWords (words : List String) : TermTable × Int :=
  words.foldl (fun st word => (mapIncr st.1 word, st.2 + 1)) ([], 0)

/-- The function `calculateTF`: the division and the multiplication of
`(pair.second / totalWords) * 100` each round. -/
def calculateTF (fl : ℚ → ℚ) (text : String) : TermTable :=
  let st := countWords (extractWords text)
  st.1.map (fun pair => (pair.1, fl (fl (pair.2 / (st.2 : ℚ)) * 100)))

/-- The rescaling loop `for (auto& pair : tf)` of `calculateTF` with the division
made explicit: a division by a zero `totalWords` yields no table. -/
def rescaleChecked (fl : ℚ → ℚ) (totalWords : Int) : TermTable → Option TermTable
  | [] => some []
  | pair :: rest =>
    if totalWords = 0 then none
    else (rescaleChecked fl totalWords rest).map
      (fun done => (pair.1, fl (fl (pair.2 / (totalWords : ℚ)) * 100)) :: done)

/-- The function `calculateTF` with the division made explicit: no table when a
division by zero is performed. -/
def calculateTFChecked (fl : ℚ → ℚ) (text : String) : Option TermTable :=
  let st := countWords (extractWords text)
  rescaleChecked fl st.2 st.1

/-! ## `calculateIDF` (search.cpp 132-158) -/

/-- The document-frequency loop of `calculateIDF`. -/
def documentFrequency (documents : List Document) : List (String × Int) :=
  documents.foldl (fun df doc =>
    let uniqueWords := (extractWords doc.2).foldl setInsert []
    uniqueWords.foldl mapIncr df) []

/-- The function `calculateIDF`. -/
def calculateIDF (log10 : ℚ → ℚ) (documents : List Document) : TermTable :=
  let totalDocuments : Int := documents.length
  (documentFrequency documents).foldl
    (fun idf pair => mapAssign idf pair.1 (log10 ((totalDocuments : ℚ) / (pair.2 : ℚ)))) []

/-! ## `calculateTFIDFScore` (search.cpp 161-169) -/

/-- The function `calculateTFIDFScore`: in `score += tf.at(keyword) * idf.at(keyword)`
the product rounds and then the sum rounds. -/
def calculateTFIDFScore (fl : ℚ → ℚ) (tf idf : TermTable) (keywords : List String) : ℚ :=
  keywords.foldl (fun score keyword =>
    match mapFind tf keyword, mapFind idf keyword with
    | some t, some i => fl (score + fl (t * i))
    | _, _ => score) 0

/-! ## Ranking: comparator, stable sort, top-N output -/

/-- The `operator<` of `pair<int, string>`. -/
def pairLess (a b : Int × String) : Prop :=
  a.1 < b.1 ∨ (¬ b.1 < a.1 ∧ a.2 < b.2)

instance pairLessDecidable (a b : Int × String) : Decidable (pairLess a b) := by
  unfold pairLess; infer_instance

/-- The comparator lambda handed to `stable_sort`:
`a.first == b.first ? a.second < b.second : a.first > b.first`. -/
def less (a b : ScoredResult) : Bool :=
  if a.1 = b.1 then decide (pairLess a.2 b.2) else decide (a.1 > b.1)

/-- Insertion of `a` into a sorted list: `a` passes the elements that the
comparator puts strictly before it and stops at the first one it does not. -/
def stableInsert (cmp : ScoredResult → ScoredResult → Bool) (a : ScoredResult) :
    List ScoredResult → List ScoredResult
  | [] => [a]
  | b :: l => if cmp b a then b :: stableInsert cmp a l else a :: b :: l

/-- The call `stable_sort(first, last, cmp)` as a stable insertion sort: elements
are inserted from the back, each in front of the equivalent elements that
followed it in the input. -/
def stable_sort (cmp : ScoredResult → ScoredResult → Bool) (l : List ScoredResult) :
    List ScoredResult :=
  l.foldr (stableInsert cmp) []

/-- The output loop `for (int i = 0; i < min(limit, (int) scores.size()); i++)`,
one line per `scores[i]`. -/
def emitFirst (limit : Int) (scores : List ScoredResult) : List ScoredResult :=
  (List.range (min limit (scores.length : Int)).toNat).map
    (fun i => scores.getD i (0, (0, "")))

/-! ## The sequential pipeline (search.cpp, `main` 201-251) -/

namespace Search

/-- The loop of lines 203-206: every document is normalised and appended. -/
def preprocessedDocuments (documents : List Document) (dictionary stopwords : List String) :
    List Document :=
  documents.foldl (fun acc doc => acc ++ [(doc.1, preProcessText doc.2 dictionary stopwords)]) []

/-- The loop of lines 212-215: one TF table per document, appended in order. -/
def tfDocs (fl : ℚ → ℚ) (preprocessed : List Document) : List TermTable :=
  preprocessed.foldl (fun acc doc => acc ++ [calculateTF fl doc.2]) []

/-- The scoring loop of lines 221-227: an entry is appended only when
`score > 0`. -/
def scoreLoop (fl : ℚ → ℚ) (tfs : List TermTable) (idf : TermTable) (keywords : List String)
    (preprocessed : List Document) : List ScoredResult :=
  (List.range preprocessed.length).foldl (fun scores i =>
    let score := calculateTFIDFScore fl (tfs.getD i []) idf keywords
    if score > 0 then scores ++ [(score, ((i : Int) + 1, (preprocessed.getD i ("", "")).1))]
    else scores) []

/-- The `scores` vector as it is handed to `stable_sort` (lines 201-227). -/
def scores (fl log10 : ℚ → ℚ) (documents : List Document) (dictionary stopwords : List String)
    (keywords : List String) : List ScoredResult :=
  let preprocessed := preprocessedDocuments documents dictionary stopwords
  scoreLoop fl (tfDocs fl preprocessed) (calculateIDF log10 preprocessed) keywords preprocessed

/-- The `scores` vector after `stable_sort` (lines 231-233). -/
def ranked (fl log10 : ℚ → ℚ) (documents : List Document) (dictionary stopwords : List String)
    (keywords : List String) : List ScoredResult :=
  stable_sort less (scores fl log10 documents dictionary stopwords keywords)

/-- What `main` writes: the on-screen preview and the lines of `results.txt`. -/
structure Output where
  screen : List ScoredResult
  resultFile : List ScoredResult
deriving DecidableEq

/-- The core of `main` from line 201 on, for `numResults = stoi(argv[1])` and
`keywords = argv[2..]`. -/
def main (fl log10 : ℚ → ℚ) (documents : List Document) (dictionary stopwords : List String)
    (numResults : Int) (keywords : List String) : Output :=
  let sorted := ranked fl log10 documents dictionary stopwords keywords
  { screen := emitFirst 5 sorted, resultFile := emitFirst numResults sorted }

end Search

/-! ## The batched pipeline (search-p.cpp, `main` 234-295) -/

namespace SearchP

/-- The start index `i * batchSize` of worker `i`. -/
def batchStart (batchSize i : Nat) : Nat := i * batchSize

/-- The end index of worker `i`:
`(i == numThreads - 1) ? size : (i + 1) * batchSize`. -/
def batchEnd (numThreads batchSize size i : Nat) : Nat :=
  if i = numThreads - 1 then size else (i + 1) * batchSize

/-- The index loop `for (int i = start; i < end; ++i)` of a worker, threading the
shared vector through the body. -/
def forRange {σ : Type} (start stop : Nat) (body : σ → Nat → σ) (init : σ) : σ :=
  (List.range' start (stop - start)).foldl body init

/-- The spawn loop `for (int i = 0; i < numThreads; ++i)` followed by the joins:
worker `i` runs on `[batchStart i, batchEnd i)`. -/
def runBatches {σ : Type} (numThreads batchSize size : Nat) (worker : σ → Nat → Nat → σ)
    (init : σ) : σ :=
  (List.range numThreads).foldl (fun shared i =>
    worker shared (batchStart batchSize i) (batchEnd numThreads batchSize size i)) init

/-- The thread function `preprocessParallel`. -/
def preprocessParallel (documents : List Document) (dictionary stopwords : List String)
    (preprocessed : List Document) (start stop : Nat) : List Document :=
  forRange start stop (fun pre i =>
    pre.set i ((documents.getD i ("", "")).1,
      preProcessText (documents.getD i ("", "")).2 dictionary stopwords)) preprocessed

/-- The thread function `calculateTFParallel`. -/
def calculateTFParallel (fl : ℚ → ℚ) (preprocessed : List Document) (tfs : List TermTable)
    (start stop : Nat) : List TermTable :=
  forRange start stop
    (fun tfs i => tfs.set i (calculateTF fl (preprocessed.getD i ("", "")).2)) tfs

/-- The thread function `calculateTFIDFScoreParallel`: slot `i` is written only
when `score > 0`. -/
def calculateTFIDFScoreParallel (fl : ℚ → ℚ) (tfs : List TermTable) (idf : TermTable)
    (keywords : List String) (preprocessed : List Document) (scores : List ScoredResult)
    (start stop : Nat) : List ScoredResult :=
  forRange start stop (fun scores i =>
    let score := calculateTFIDFScore fl (tfs.getD i []) idf keywords
    if score > 0 then scores.set i (score, ((i : Int) + 1, (preprocessed.getD i ("", "")).1))
    else scores) scores

/-- The vector `preprocessedDocuments(documents.size())` after the first stage. -/
def preprocessedDocuments (numThreads batchSize : Nat) (documents : List Document)
    (dictionary stopwords : List String) : List Document :=
  runBatches numThreads batchSize documents.length
    (preprocessParallel documents dictionary stopwords)
    (List.replicate documents.length ("", ""))

/-- The vector `tfDocs(preprocessedDocuments.size())` after the second stage. -/
def tfDocs (fl : ℚ → ℚ) (numThreads batchSize : Nat) (preprocessed : List Document) :
    List TermTable :=
  runBatches numThreads batchSize preprocessed.length (calculateTFParallel fl preprocessed)
    (List.replicate preprocessed.length [])

/-- The pre-sized vector `scores(preprocessedDocuments.size())` after the third
stage, as it is handed to `stable_sort` (lines 234-276); `batchSize` is computed
once, as `documents.size() / numThreads`. -/
def scores (fl log10 : ℚ → ℚ) (numThreads : Nat) (documents : List Document)
    (dictionary stopwords : List String) (keywords : List String) : List ScoredResult :=
  let batchSize := documents.length / numThreads
  let preprocessed := preprocessedDocuments numThreads batchSize documents dictionary stopwords
  let tfs := tfDocs fl numThreads batchSize preprocessed
  let idf := calculateIDF log10 preprocessed
  runBatches numThreads batchSize preprocessed.length
    (calculateTFIDFScoreParallel fl tfs idf keywords preprocessed)
    (List.replicate preprocessed.length (0, (0, "")))

/-- The `scores` vector after `stable_sort` (lines 280-282). -/
def ranked (fl log10 : ℚ → ℚ) (numThreads : Nat) (documents : List Document)
    (dictionary stopwords : List String) (keywords : List String) : List ScoredResult :=
  stable_sort less (scores fl log10 numThreads documents dictionary stopwords keywords)

/-- The core of `main` from line 234 on, for a worker count `numThreads`. -/
def main (fl log10 : ℚ → ℚ) (numThreads : Nat) (documents : List Document)
    (dictionary stopwords : List String) (numResults : Int) (keywords : List String) :
    Search.Output :=
  let sorted := ranked fl log10 numThreads documents dictionary stopwords keywords
  { screen := emitFirst 5 sorted, resultFile := emitFirst numResults sorted }

end SearchP

/-! ## Specification-side definitions

The quantities the specification speaks of, written directly rather than as the
loops of the source. The theorems below relate the two. -/

/-- The corpus after normalisation: every document keeps its identifier and
carries its normalised text. -/
def normalizedCorpus (documents : List Document) (dictionary stopwords : List String) :
    List Document :=
  documents.map (fun doc => (doc.1, preProcessText doc.2 dictionary stopwords))

/-- The TF-IDF score of the document at 0-based index `i` against the query: its
own TF table, the IDF table of the whole normalised corpus, the keyword list. -/
def docScore (fl log10 : ℚ → ℚ) (documents : List Document) (dictionary stopwords : List String)
    (keywords : List String) (i : Nat) : ℚ :=
  calculateTFIDFScore fl
    (calculateTF fl ((normalizedCorpus documents dictionary stopwords).getD i ("", "")).2)
    (calculateIDF log10 (normalizedCorpus documents dictionary stopwords)) keywords

/-- The scored result of the document at 0-based index `i`: its score, its
1-based ordinal `i + 1` and its identifier. -/
def scoredEntry (fl log10 : ℚ → ℚ) (documents : List Document) (dictionary stopwords : List String)
    (keywords : List String) (i : Nat) : ScoredResult :=
  (docScore fl log10 documents dictionary stopwords keywords i,
    ((i : Int) + 1, (documents.getD i ("", "")).1))

/-- The positive-score documents in corpus order. -/
def positiveEntries (fl log10 : ℚ → ℚ) (documents : List Document)
    (dictionary stopwords : List String) (keywords : List String) : List ScoredResult :=
  (List.range documents.length).filterMap (fun i =>
    if docScore fl log10 documents dictionary stopwords keywords i > 0 then
      some (scoredEntry fl log10 documents dictionary stopwords keywords i)
    else none)

/-- The slot of the document at 0-based index `i` in a pre-sized score vector:
its scored result when the score is positive, the value-initialised entry
`(0, (0, ""))` otherwise. -/
def scoreSlot (fl log10 : ℚ → ℚ) (documents : List Document) (dictionary stopwords : List String)
    (keywords : List String) (i : Nat) : ScoredResult :=
  if docScore fl log10 documents dictionary stopwords keywords i > 0 then
    scoredEntry fl log10 documents dictionary stopwords keywords i
  else (0, (0, ""))

/-- The number of documents with a score `> 0`. -/
def positiveCount (fl log10 : ℚ → ℚ) (documents : List Document)
    (dictionary stopwords : List String) (keywords : List String) : Nat :=
  ((List.range documents.length).filter (fun i =>
    decide (docScore fl log10 documents dictionary stopwords keywords i > 0))).length

/-- The maximal runs of alphabetic characters of a text: the non-empty pieces
between non-alphabetic characters. -/
def alphaRuns (text : String) : List (List Char) :=
  (text.toList.splitOnP (fun c => !isalpha c)).filter (fun run => run ≠ [])

/-- A run of characters, lowercased, as a token. -/
def lowerRun (run : List Char) : String := String.mk (run.map tolower)

/-- The vocabulary filter: in the vocabulary and not a stopword. -/
def survives (dictionary stopwords : List String) (word : String) : Bool :=
  decide (word ∈ dictionary ∧ word ∉ stopwords)

/-- The surviving tokens of a text, in order and with multiplicity: its
lowercased alphabetic runs that pass the vocabulary filter. -/
def survivingTokens (text : String) (dictionary stopwords : List String) : List String :=
  ((alphaRuns text).map lowerRun).filter (survives dictionary stopwords)

/-- Every token followed by one space. -/
def spaceTerminated : List String → String
  | [] => ""
  | w :: ws => w ++ " " ++ spaceTerminated ws

/-- The document frequency of a word: the number of documents whose token list
contains it, however often. -/
def docFreq (documents : List Document) (w : String) : Nat :=
  (documents.filter (fun doc => decide (w ∈ extractWords doc.2))).length

/-- The value of a TF table at a token, an absent entry counting as zero. -/
def tfValue (tf : TermTable) (w : String) : ℚ := (mapFind tf w).getD 0

/-- A rational stand-in for `log10` on which the pipelines can be run: the chord
of the logarithm between 1 and 10. It is exact at 1 and at 10 and increasing. -/
def log10Chord (q : ℚ) : ℚ := (q - 1) / 9

/-- The power of two as an integer power of the rational 2. -/
theorem pow2_eq (e : Int) : pow2 e = (2 : ℚ) ^ e := by
  unfold pow2
  split
  · rename_i h
    have he : e = (e.toNat : Int) := (Int.toNat_of_nonneg h).symm
    rw [Nat.cast_pow]
    conv_rhs => rw [he]
    rw [zpow_natCast]
    norm_num
  · rename_i h
    have he : e = -((-e).toNat : Int) := by
      rw [Int.toNat_of_nonneg (by omega)]
      omega
    rw [Nat.cast_pow]
    conv_rhs => rw [he]
    rw [zpow_neg, zpow_natCast, one_div]
    norm_num

/-- A power of two is positive. -/
theorem pow2_pos (e : Int) : 0 < pow2 e := by
  rw [pow2_eq]
  positivity

/-- The digit count brackets a positive number between two powers of two. -/
theorem bitLength_spec (fuel n : Nat) (hn : n ≠ 0) (hfuel : n ≤ fuel) :
    1 ≤ bitLength fuel n ∧ 2 ^ (bitLength fuel n - 1) ≤ n ∧ n < 2 ^ bitLength fuel n := by
  induction fuel generalizing n with
  | zero => omega
  | succ fuel ih =>
    unfold bitLength
    rw [if_neg hn]
    by_cases h2 : n / 2 = 0
    · have hone : n = 1 := by omega
      subst hone
      cases fuel with
      | zero => simp [bitLength]
      | succ f => simp [bitLength]
    · obtain ⟨h1, hlo, hhi⟩ := ih (n / 2) h2 (by omega)
      refine ⟨by omega, ?_, ?_⟩
      · have hsplit : bitLength fuel (n / 2) + 1 - 1 = (bitLength fuel (n / 2) - 1) + 1 := by omega
        rw [hsplit, pow_succ]
        omega
      · rw [pow_succ]
        omega

/-- The absolute value of a rational as the quotient of two natural numbers. -/
theorem abs_eq_natAbs_div (x : ℚ) : |x| = (x.num.natAbs : ℚ) / (x.den : ℚ) := by
  rw [Rat.abs_def, Rat.divInt_eq_div, Int.cast_natCast, Int.cast_natCast]

/-- The binary exponent brackets a non-zero rational between two consecutive
powers of two. -/
theorem binaryExponent_spec (x : ℚ) (hx : x ≠ 0) :
    (2 : ℚ) ^ binaryExponent x ≤ |x| ∧ |x| < (2 : ℚ) ^ (binaryExponent x + 1) := by
  have ha : x.num.natAbs ≠ 0 := by
    intro h
    exact hx (Rat.num_eq_zero.mp (Int.natAbs_eq_zero.mp h))
  have hb : x.den ≠ 0 := x.den_nz
  unfold binaryExponent
  rw [pow2_eq]
  obtain ⟨ha1, halo, hahi⟩ := bitLength_spec _ _ ha (le_refl _)
  obtain ⟨hb1, hblo, hbhi⟩ := bitLength_spec _ _ hb (le_refl _)
  generalize bitLength x.num.natAbs x.num.natAbs = la at *
  generalize bitLength x.den x.den = lb at *
  have hbpos : (0 : ℚ) < (x.den : ℚ) := by exact_mod_cast Nat.pos_of_ne_zero hb
  have haq : ((2 : ℚ) ^ (((la - 1 : ℕ) : ℤ))) ≤ (x.num.natAbs : ℚ) := by
    rw [zpow_natCast]
    exact_mod_cast halo
  have haq' : (x.num.natAbs : ℚ) < (2 : ℚ) ^ ((la : ℕ) : ℤ) := by
    rw [zpow_natCast]
    exact_mod_cast hahi
  have hbq : ((2 : ℚ) ^ (((lb - 1 : ℕ) : ℤ))) ≤ (x.den : ℚ) := by
    rw [zpow_natCast]
    exact_mod_cast hblo
  have hbq' : (x.den : ℚ) < (2 : ℚ) ^ ((lb : ℕ) : ℤ) := by
    rw [zpow_natCast]
    exact_mod_cast hbhi
  have h2 : (2 : ℚ) ≠ 0 := by norm_num
  have hupper : |x| < (2 : ℚ) ^ ((la : ℤ) - (lb : ℤ) + 1) := by
    rw [abs_eq_natAbs_div, div_lt_iff₀ hbpos]
    calc (x.num.natAbs : ℚ) < (2 : ℚ) ^ ((la : ℕ) : ℤ) := haq'
      _ = (2 : ℚ) ^ ((la : ℤ) - (lb : ℤ) + 1) * (2 : ℚ) ^ (((lb - 1 : ℕ) : ℤ)) := by
          rw [← zpow_add₀ h2]
          congr 1
          omega
      _ ≤ (2 : ℚ) ^ ((la : ℤ) - (lb : ℤ) + 1) * (x.den : ℚ) :=
          mul_le_mul_of_nonneg_left hbq (by positivity)
  have hlower : (2 : ℚ) ^ ((la : ℤ) - (lb : ℤ) - 1) ≤ |x| := by
    rw [abs_eq_natAbs_div, le_div_iff₀ hbpos]
    calc (2 : ℚ) ^ ((la : ℤ) - (lb : ℤ) - 1) * (x.den : ℚ)
        ≤ (2 : ℚ) ^ ((la : ℤ) - (lb : ℤ) - 1) * (2 : ℚ) ^ ((lb : ℕ) : ℤ) :=
          mul_le_mul_of_nonneg_left (le_of_lt hbq') (by positivity)
      _ = (2 : ℚ) ^ (((la - 1 : ℕ) : ℤ)) := by
          rw [← zpow_add₀ h2]
          congr 1
          omega
      _ ≤ (x.num.natAbs : ℚ) := haq
  split
  · rename_i h
    exact ⟨h, hupper⟩
  · rename_i h
    refine ⟨hlower, ?_⟩
    rw [sub_add_cancel]
    exact lt_of_not_le h

/-- Two powers of two that bracket the same positive number have the same
exponent. -/
theorem exponent_unique (y : ℚ) (l l' : Int)
    (h1 : (2 : ℚ) ^ l ≤ y) (h2 : y < (2 : ℚ) ^ (l + 1))
    (h1' : (2 : ℚ) ^ l' ≤ y) (h2' : y < (2 : ℚ) ^ (l' + 1)) : l = l' := by
  have hlt : ∀ a b : Int, (2 : ℚ) ^ a ≤ y → y < (2 : ℚ) ^ (b + 1) → a ≤ b := by
    intro a b ha hb
    have hab : (2 : ℚ) ^ a < (2 : ℚ) ^ (b + 1) := lt_of_le_of_lt ha hb
    have := (zpow_lt_zpow_iff_right₀ (by norm_num : (1 : ℚ) < 2)).mp hab
    omega
  exact le_antisymm (hlt l l' h1 h2') (hlt l' l h1' h2)

/-- Rounding to the nearest integer moves a number by at most one half. -/
theorem roundHalfEven_bounds (x : ℚ) :
    (roundHalfEven x : ℚ) - 1 / 2 ≤ x ∧ x ≤ (roundHalfEven x : ℚ) + 1 / 2 := by
  have hlo := Int.floor_le x
  have hhi := Int.lt_floor_add_one x
  unfold roundHalfEven
  split
  · constructor <;> linarith
  · split
    · push_cast
      constructor <;> linarith
    · rename_i h1 h2
      have hhalf : x - (⌊x⌋ : ℚ) = 1 / 2 := le_antisymm (not_lt.mp h2) (not_lt.mp h1)
      split
      · constructor <;> linarith
      · push_cast
        constructor <;> linarith

/-- Rounding to the nearest integer keeps the order. -/
theorem roundHalfEven_mono {x y : ℚ} (h : x ≤ y) : roundHalfEven x ≤ roundHalfEven y := by
  by_contra hlt
  have hlt' : roundHalfEven y + 1 ≤ roundHalfEven x := by omega
  have hq : (roundHalfEven y : ℚ) + 1 ≤ (roundHalfEven x : ℚ) := by exact_mod_cast hlt'
  have hx := (roundHalfEven_bounds x).1
  have hy := (roundHalfEven_bounds y).2
  have hxy : x = y := le_antisymm h (by linarith)
  subst hxy
  omega

/-- Rounding to the nearest integer leaves an integer alone. -/
theorem roundHalfEven_intCast (n : Int) : roundHalfEven (n : ℚ) = n := by
  unfold roundHalfEven
  simp

/-- Rounding to the nearest integer commutes with negation. -/
theorem roundHalfEven_neg (x : ℚ) : roundHalfEven (-x) = -roundHalfEven x := by
  by_cases hint : (⌊x⌋ : ℚ) = x
  · rw [← hint, ← Int.cast_neg, roundHalfEven_intCast, roundHalfEven_intCast]
  · have hlo := Int.floor_le x
    have hhi := Int.lt_floor_add_one x
    have hlt : (⌊x⌋ : ℚ) < x := lt_of_le_of_ne hlo hint
    have hfloor : ⌊-x⌋ = -⌊x⌋ - 1 := by
      rw [Int.floor_eq_iff]
      push_cast
      constructor <;> linarith
    unfold roundHalfEven
    rw [hfloor]
    push_cast
    by_cases h1 : x - (⌊x⌋ : ℚ) < 1 / 2
    · have h2 : ¬ (-x - (-(⌊x⌋ : ℚ) - 1) < 1 / 2) := by
        intro h
        linarith
      have h3 : 1 / 2 < -x - (-(⌊x⌋ : ℚ) - 1) := by linarith
      rw [if_pos h1, if_neg h2, if_pos h3]
      omega
    · by_cases h2 : 1 / 2 < x - (⌊x⌋ : ℚ)
      · have h3 : -x - (-(⌊x⌋ : ℚ) - 1) < 1 / 2 := by linarith
        rw [if_neg h1, if_pos h2, if_pos h3]
        omega
      · have h3 : ¬ (-x - (-(⌊x⌋ : ℚ) - 1) < 1 / 2) := by
          intro h
          linarith
        have h4 : ¬ (1 / 2 < -x - (-(⌊x⌋ : ℚ) - 1)) := by
          intro h
          linarith
        rw [if_neg h1, if_neg h2, if_neg h3, if_neg h4]
        by_cases hpar : ⌊x⌋ % 2 = 0
        · have hpar' : ¬ ((-⌊x⌋ - 1) % 2 = 0) := by omega
          rw [if_pos hpar, if_neg hpar']
          omega
        · have hpar' : (-⌊x⌋ - 1) % 2 = 0 := by omega
          rw [if_neg hpar, if_pos hpar']
          omega

/-- The binary exponent ignores the sign. -/
theorem binaryExponent_neg (x : ℚ) : binaryExponent (-x) = binaryExponent x := by
  unfold binaryExponent
  simp only [Rat.neg_num, Rat.neg_den, Int.natAbs_neg, abs_neg]

/-- The double rounding commutes with negation. -/
theorem roundDouble_neg (x : ℚ) : roundDouble (-x) = -roundDouble x := by
  unfold roundDouble
  by_cases hx : x = 0
  · simp [hx]
  · have hx' : -x ≠ 0 := neg_ne_zero.mpr hx
    rw [if_neg hx, if_neg hx', binaryExponent_neg, neg_div, roundHalfEven_neg]
    push_cast
    ring

/-- The double rounding fixes zero. -/
theorem roundDouble_zero : roundDouble 0 = 0 := by
  simp [roundDouble]

/-- The significand of a positive rational: scaled by its binary exponent it lies
between `2 ^ 52` and `2 ^ 53`. -/
theorem significand_bounds (x : ℚ) (hx : 0 < x) :
    (2 : ℚ) ^ (52 : Int) ≤ x / pow2 (binaryExponent x - 52) ∧
    x / pow2 (binaryExponent x - 52) < (2 : ℚ) ^ (53 : Int) := by
  obtain ⟨hlo, hhi⟩ := binaryExponent_spec x (ne_of_gt hx)
  rw [abs_of_pos hx] at hlo hhi
  have h2 : (2 : ℚ) ≠ 0 := by norm_num
  have hpos : (0 : ℚ) < (2 : ℚ) ^ (binaryExponent x - 52) := by positivity
  rw [pow2_eq, le_div_iff₀ hpos, div_lt_iff₀ hpos, ← zpow_add₀ h2, ← zpow_add₀ h2]
  constructor
  · have : (52 : Int) + (binaryExponent x - 52) = binaryExponent x := by omega
    rw [this]
    exact hlo
  · have : (53 : Int) + (binaryExponent x - 52) = binaryExponent x + 1 := by omega
    rw [this]
    exact hhi

/-- The rounded significand of a positive rational lies between `2 ^ 52` and
`2 ^ 53`. -/
theorem roundedSignificand_bounds (x : ℚ) (hx : 0 < x) :
    (2 : ℚ) ^ (52 : Int) ≤ (roundHalfEven (x / pow2 (binaryExponent x - 52)) : ℚ) ∧
    (roundHalfEven (x / pow2 (binaryExponent x - 52)) : ℚ) ≤ (2 : ℚ) ^ (53 : Int) := by
  obtain ⟨hlo, hhi⟩ := significand_bounds x hx
  have e52 : (2 : ℚ) ^ (52 : Int) = (((2 : Int) ^ 52 : Int) : ℚ) := by norm_num
  have e53 : (2 : ℚ) ^ (53 : Int) = (((2 : Int) ^ 53 : Int) : ℚ) := by norm_num
  rw [e52] at hlo ⊢
  rw [e53] at hhi ⊢
  constructor
  · have h := roundHalfEven_mono hlo
    rw [roundHalfEven_intCast] at h
    exact_mod_cast h
  · have h := roundHalfEven_mono (le_of_lt hhi)
    rw [roundHalfEven_intCast] at h
    exact_mod_cast h

/-- The double rounding of a positive rational stays between the powers of two
that bracket it. -/
theorem roundDouble_bounds (x : ℚ) (hx : 0 < x) :
    (2 : ℚ) ^ binaryExponent x ≤ roundDouble x ∧
    roundDouble x ≤ (2 : ℚ) ^ (binaryExponent x + 1) := by
  obtain ⟨hlo, hhi⟩ := roundedSignificand_bounds x hx
  have h2 : (2 : ℚ) ≠ 0 := by norm_num
  have hpos : (0 : ℚ) < (2 : ℚ) ^ (binaryExponent x - 52) := by positivity
  unfold roundDouble
  rw [if_neg (ne_of_gt hx)]
  rw [pow2_eq] at hlo hhi ⊢
  constructor
  · calc (2 : ℚ) ^ binaryExponent x
        = (2 : ℚ) ^ (52 : Int) * (2 : ℚ) ^ (binaryExponent x - 52) := by
          rw [← zpow_add₀ h2]
          congr 1
          omega
      _ ≤ _ := mul_le_mul_of_nonneg_right hlo (le_of_lt hpos)
  · calc _ ≤ (2 : ℚ) ^ (53 : Int) * (2 : ℚ) ^ (binaryExponent x - 52) :=
          mul_le_mul_of_nonneg_right hhi (le_of_lt hpos)
      _ = (2 : ℚ) ^ (binaryExponent x + 1) := by
          rw [← zpow_add₀ h2]
          congr 1
          omega

/-- The double rounding of a positive rational is positive. -/
theorem roundDouble_pos (x : ℚ) (hx : 0 < x) : 0 < roundDouble x :=
  lt_of_lt_of_le (by positivity) (roundDouble_bounds x hx).1

/-- The double rounding of a rational that is not negative is not negative. -/
theorem roundDouble_nonneg (x : ℚ) (hx : 0 ≤ x) : 0 ≤ roundDouble x := by
  rcases eq_or_lt_of_le hx with h | h
  · rw [← h, roundDouble_zero]
  · exact le_of_lt (roundDouble_pos x h)

/-- The double rounding keeps the order of two positive rationals. -/
theorem roundDouble_mono_pos (x y : ℚ) (hx : 0 < x) (hxy : x ≤ y) :
    roundDouble x ≤ roundDouble y := by
  have hy : 0 < y := lt_of_lt_of_le hx hxy
  obtain ⟨hxlo, hxhi⟩ := binaryExponent_spec x (ne_of_gt hx)
  obtain ⟨hylo, hyhi⟩ := binaryExponent_spec y (ne_of_gt hy)
  rw [abs_of_pos hx] at hxlo hxhi
  rw [abs_of_pos hy] at hylo hyhi
  have hle : binaryExponent x ≤ binaryExponent y := by
    have hlt : (2 : ℚ) ^ binaryExponent x < (2 : ℚ) ^ (binaryExponent y + 1) :=
      lt_of_le_of_lt hxlo (lt_of_le_of_lt hxy hyhi)
    have := (zpow_lt_zpow_iff_right₀ (by norm_num : (1 : ℚ) < 2)).mp hlt
    omega
  rcases eq_or_lt_of_le hle with heq | hlt
  · unfold roundDouble
    rw [if_neg (ne_of_gt hx), if_neg (ne_of_gt hy), heq]
    have hpos : (0 : ℚ) < pow2 (binaryExponent y - 52) := pow2_pos _
    apply mul_le_mul_of_nonneg_right _ (le_of_lt hpos)
    have hdiv : x / pow2 (binaryExponent y - 52) ≤ y / pow2 (binaryExponent y - 52) :=
      div_le_div_of_nonneg_right hxy (le_of_lt hpos)
    exact_mod_cast roundHalfEven_mono hdiv
  · calc roundDouble x ≤ (2 : ℚ) ^ (binaryExponent x + 1) := (roundDouble_bounds x hx).2
      _ ≤ (2 : ℚ) ^ binaryExponent y :=
          (zpow_le_zpow_iff_right₀ (by norm_num : (1 : ℚ) < 2)).mpr (by omega)
      _ ≤ roundDouble y := (roundDouble_bounds y hy).1

/-- The double rounding keeps the order. -/
theorem roundDouble_mono (x y : ℚ) (hxy : x ≤ y) : roundDouble x ≤ roundDouble y := by
  rcases lt_trichotomy 0 x with hx | hx | hx
  · exact roundDouble_mono_pos x y hx hxy
  · rw [← hx, roundDouble_zero]
    exact roundDouble_nonneg y (hx ▸ hxy)
  · rcases lt_or_le y 0 with hy | hy
    · have h := roundDouble_mono_pos (-y) (-x) (neg_pos.mpr hy) (neg_le_neg hxy)
      rw [roundDouble_neg, roundDouble_neg] at h
      exact neg_le_neg_iff.mp h
    · have hneg : roundDouble x ≤ 0 := by
        have h := roundDouble_pos (-x) (neg_pos.mpr hx)
        rw [roundDouble_neg] at h
        linarith
      exact le_trans hneg (roundDouble_nonneg y hy)

/-- The binary exponent of a positive rational from a bracket of powers of two. -/
theorem binaryExponent_eq (y : ℚ) (l : Int) (hy : 0 < y)
    (h1 : (2 : ℚ) ^ l ≤ y) (h2 : y < (2 : ℚ) ^ (l + 1)) : binaryExponent y = l := by
  obtain ⟨hlo, hhi⟩ := binaryExponent_spec y (ne_of_gt hy)
  rw [abs_of_pos hy] at hlo hhi
  exact exponent_unique y _ _ hlo hhi h1 h2

/-- The double rounding leaves the rounding of a positive rational alone. -/
theorem roundDouble_idem_pos (x : ℚ) (hx : 0 < x) : roundDouble (roundDouble x) = roundDouble x := by
  obtain ⟨hmlo, hmhi⟩ := roundedSignificand_bounds x hx
  obtain ⟨hrlo, hrhi⟩ := roundDouble_bounds x hx
  have hrpos := roundDouble_pos x hx
  have h2 : (2 : ℚ) ≠ 0 := by norm_num
  have hdef : roundDouble x
      = (roundHalfEven (x / pow2 (binaryExponent x - 52)) : ℚ)
        * (2 : ℚ) ^ (binaryExponent x - 52) := by
    unfold roundDouble
    rw [if_neg (ne_of_gt hx), pow2_eq]
  generalize hm : roundHalfEven (x / pow2 (binaryExponent x - 52)) = m at hmlo hmhi hdef
  generalize hl : binaryExponent x = l at hrlo hrhi hdef
  generalize hr : roundDouble x = r at hrlo hrhi hrpos hdef
  have hepos : (0 : ℚ) < (2 : ℚ) ^ (l - 52) := by positivity
  rcases eq_or_lt_of_le hmhi with htop | hlt
  · have hrval : r = (2 : ℚ) ^ (l + 1) := by
      rw [hdef, htop, ← zpow_add₀ h2]
      congr 1
      omega
    have hexp : binaryExponent r = l + 1 := by
      apply binaryExponent_eq r (l + 1) hrpos
      · rw [hrval]
      · rw [hrval]
        exact (zpow_lt_zpow_iff_right₀ (by norm_num : (1 : ℚ) < 2)).mpr (by omega)
    unfold roundDouble
    rw [if_neg (ne_of_gt hrpos), hexp, pow2_eq]
    have hscaled : r / (2 : ℚ) ^ (l + 1 - 52) = (((2 : Int) ^ 52 : Int) : ℚ) := by
      rw [hrval, ← zpow_sub₀ h2]
      have : l + 1 - (l + 1 - 52) = 52 := by omega
      rw [this]
      norm_num
    rw [hscaled, roundHalfEven_intCast, hrval]
    have : (((2 : Int) ^ 52 : Int) : ℚ) = (2 : ℚ) ^ (52 : Int) := by norm_num
    rw [this, ← zpow_add₀ h2]
    congr 1
    omega
  · have hexp : binaryExponent r = l := by
      apply binaryExponent_eq r l hrpos hrlo
      rw [hdef]
      calc (m : ℚ) * (2 : ℚ) ^ (l - 52) < (2 : ℚ) ^ (53 : Int) * (2 : ℚ) ^ (l - 52) :=
            mul_lt_mul_of_pos_right hlt hepos
        _ = (2 : ℚ) ^ (l + 1) := by
            rw [← zpow_add₀ h2]
            congr 1
            omega
    unfold roundDouble
    rw [if_neg (ne_of_gt hrpos), hexp, pow2_eq]
    have hscaled : r / (2 : ℚ) ^ (l - 52) = (m : ℚ) := by
      rw [hdef]
      field_simp
    rw [hscaled, roundHalfEven_intCast, hdef]

/-- The double rounding leaves a double alone. -/
theorem roundDouble_idem (x : ℚ) : roundDouble (roundDouble x) = roundDouble x := by
  rcases lt_trichotomy 0 x with hx | hx | hx
  · exact roundDouble_idem_pos x hx
  · rw [← hx, roundDouble_zero, roundDouble_zero]
  · have h := roundDouble_idem_pos (-x) (neg_pos.mpr hx)
    rw [roundDouble_neg, roundDouble_neg] at h
    exact neg_injective h

/-- The double rounding leaves the natural numbers below `2 ^ 53` alone: counting
in a double is exact. -/
theorem roundDouble_natCast (n : Nat) (hn : n < 2 ^ 53) : roundDouble (n : ℚ) = (n : ℚ) := by
  rcases Nat.eq_zero_or_pos n with h0 | hpos
  · rw [h0, Nat.cast_zero, roundDouble_zero]
  · have hx : (0 : ℚ) < (n : ℚ) := by exact_mod_cast hpos
    obtain ⟨hlo, hhi⟩ := binaryExponent_spec (n : ℚ) (ne_of_gt hx)
    rw [abs_of_pos hx] at hlo hhi
    have h2 : (2 : ℚ) ≠ 0 := by norm_num
    have hupper : binaryExponent (n : ℚ) ≤ 52 := by
      have hlt : (2 : ℚ) ^ binaryExponent (n : ℚ) < (2 : ℚ) ^ (53 : Int) := by
        refine lt_of_le_of_lt hlo ?_
        have : ((n : ℕ) : ℚ) < ((2 ^ 53 : ℕ) : ℚ) := by exact_mod_cast hn
        calc (n : ℚ) < ((2 ^ 53 : ℕ) : ℚ) := this
          _ = (2 : ℚ) ^ (53 : Int) := by norm_num
      have := (zpow_lt_zpow_iff_right₀ (by norm_num : (1 : ℚ) < 2)).mp hlt
      omega
    obtain ⟨k, hk⟩ : ∃ k : Nat, (k : Int) = 52 - binaryExponent (n : ℚ) :=
      ⟨(52 - binaryExponent (n : ℚ)).toNat, Int.toNat_of_nonneg (by omega)⟩
    have he : binaryExponent (n : ℚ) - 52 = -(k : Int) := by omega
    unfold roundDouble
    rw [if_neg (ne_of_gt hx), pow2_eq, he]
    have hscaled : (n : ℚ) / (2 : ℚ) ^ (-(k : Int)) = (((n * 2 ^ k : Nat) : Int) : ℚ) := by
      rw [zpow_neg, zpow_natCast]
      push_cast
      field_simp
    rw [hscaled, roundHalfEven_intCast, zpow_neg, zpow_natCast]
    push_cast
    field_simp

/-- The double rounding moves a rational by at most half a unit in the last place:
the relative error is at most `2 ^ (-53)`. -/
theorem roundDouble_error (x : ℚ) : |roundDouble x - x| ≤ |x| / (2 : ℚ) ^ (53 : Int) := by
  have hpos : ∀ y : ℚ, 0 < y → |roundDouble y - y| ≤ |y| / (2 : ℚ) ^ (53 : Int) := by
    intro y hy
    obtain ⟨hlo, -⟩ := binaryExponent_spec y (ne_of_gt hy)
    have h2 : (2 : ℚ) ≠ 0 := by norm_num
    have hp : (0 : ℚ) < (2 : ℚ) ^ (binaryExponent y - 52) := by positivity
    have hb := roundHalfEven_bounds (y / pow2 (binaryExponent y - 52))
    have hscaled : y = y / (2 : ℚ) ^ (binaryExponent y - 52) * (2 : ℚ) ^ (binaryExponent y - 52) := by
      field_simp
    have hdiff : roundDouble y - y
        = ((roundHalfEven (y / pow2 (binaryExponent y - 52)) : ℚ)
            - y / (2 : ℚ) ^ (binaryExponent y - 52)) * (2 : ℚ) ^ (binaryExponent y - 52) := by
      unfold roundDouble
      rw [if_neg (ne_of_gt hy), pow2_eq, sub_mul, ← hscaled]
    rw [pow2_eq] at hb hdiff
    rw [hdiff, abs_mul, abs_of_pos hp]
    have habs : |(roundHalfEven (y / (2 : ℚ) ^ (binaryExponent y - 52)) : ℚ)
        - y / (2 : ℚ) ^ (binaryExponent y - 52)| ≤ 1 / 2 := by
      rw [abs_le]
      constructor <;> linarith [hb.1, hb.2]
    have hhalf : (1 / 2 : ℚ) * (2 : ℚ) ^ (binaryExponent y - 52)
        = (2 : ℚ) ^ binaryExponent y / (2 : ℚ) ^ (53 : Int) := by
      rw [← zpow_sub₀ h2]
      have : binaryExponent y - 53 = (-1 : Int) + (binaryExponent y - 52) := by omega
      rw [this, zpow_add₀ h2]
      norm_num
    calc _ ≤ (1 / 2 : ℚ) * (2 : ℚ) ^ (binaryExponent y - 52) :=
          mul_le_mul_of_nonneg_right habs (le_of_lt hp)
      _ = (2 : ℚ) ^ binaryExponent y / (2 : ℚ) ^ (53 : Int) := hhalf
      _ ≤ |y| / (2 : ℚ) ^ (53 : Int) := by
          apply div_le_div_of_nonneg_right hlo
          positivity
  rcases lt_trichotomy x 0 with hneg | hzero | hgt
  · have h := hpos (-x) (by linarith)
    rw [roundDouble_neg, abs_neg] at h
    have hflip : -roundDouble x - -x = -(roundDouble x - x) := by ring
    rw [hflip, abs_neg] at h
    exact h
  · rw [hzero, roundDouble_zero]
    simp
  · exact hpos x hgt

/-! ## The ranking comparator -/

/-- The comparator unfolded: a strictly larger score, or the same score and a
lexicographically smaller `(ordinal, identifier)` pair. -/
theorem less_iff (a b : ScoredResult) :
    less a b = true ↔
      b.1 < a.1 ∨ (a.1 = b.1 ∧ (a.2.1 < b.2.1 ∨ (a.2.1 = b.2.1 ∧ a.2.2 < b.2.2))) := by
  unfold less pairLess
  by_cases h : a.1 = b.1
  · simp only [h, if_true, decide_eq_true_eq, lt_irrefl, false_or, true_and, not_lt]
    constructor
    · rintro (h1 | ⟨h1, h2⟩)
      · exact Or.inl h1
      · rcases lt_or_eq_of_le h1 with h3 | h3
        · exact Or.inl h3
        · exact Or.inr ⟨h3, h2⟩
    · rintro (h1 | ⟨h1, h2⟩)
      · exact Or.inl h1
      · exact Or.inr ⟨le_of_eq h1, h2⟩
  · simp only [h, if_false, decide_eq_true_eq, false_and, or_false, gt_iff_lt]

/-- The comparator never puts a result before itself. -/
theorem less_irrefl (a : ScoredResult) : less a a = false := by
  rw [Bool.eq_false_iff, Ne, less_iff]
  simp

/-- The comparator is transitive. -/
theorem less_trans {a b c : ScoredResult} (hab : less a b = true) (hbc : less b c = true) :
    less a c = true := by
  rw [less_iff] at *
  rcases hab with h1 | ⟨h1, h2⟩
  · rcases hbc with h3 | ⟨h3, _⟩
    · exact Or.inl (lt_trans h3 h1)
    · exact Or.inl (h3 ▸ h1)
  · rcases hbc with h3 | ⟨h3, h4⟩
    · exact Or.inl (h1 ▸ h3)
    · refine Or.inr ⟨h1.trans h3, ?_⟩
      rcases h2 with h5 | ⟨h5, h6⟩
      · rcases h4 with h7 | ⟨h7, _⟩
        · exact Or.inl (lt_trans h5 h7)
        · exact Or.inl (h7 ▸ h5)
      · rcases h4 with h7 | ⟨h7, h8⟩
        · exact Or.inl (h5 ▸ h7)
        · exact Or.inr ⟨h5.trans h7, lt_trans h6 h8⟩

/-- The comparator is asymmetric. -/
theorem less_asymm {a b : ScoredResult} (hab : less a b = true) : less b a = false := by
  rw [Bool.eq_false_iff]
  intro hba
  have h := less_trans hab hba
  rw [less_irrefl] at h
  exact Bool.false_ne_true h

/-- Two results that the comparator does not separate are the same result. -/
theorem eq_of_not_less {a b : ScoredResult} (hab : less a b = false) (hba : less b a = false) :
    a = b := by
  rw [Bool.eq_false_iff, Ne, less_iff] at hab hba
  push_neg at hab hba
  obtain ⟨h1, h2⟩ := hab
  obtain ⟨h3, h4⟩ := hba
  have e1 : a.1 = b.1 := le_antisymm h1 h3
  obtain ⟨h5, h6⟩ := h2 e1
  obtain ⟨h7, h8⟩ := h4 e1.symm
  have e2 : a.2.1 = b.2.1 := le_antisymm h7 h5
  have e3 : a.2.2 = b.2.2 := le_antisymm (h8 e2.symm) (h6 e2)
  exact Prod.ext e1 (Prod.ext e2 e3)

/-- Claim C6. The ranking comparator is a strict total order on scored results:
it is irreflexive and transitive, and for any two results exactly one of
`less a b`, `less b a`, `a = b` holds. -/
theorem less_strict_total_order :
    (∀ a : ScoredResult, less a a = false) ∧
    (∀ a b c : ScoredResult, less a b = true → less b c = true → less a c = true) ∧
    (∀ a b : ScoredResult,
      (less a b = true ∧ less b a = false ∧ a ≠ b) ∨
      (less a b = false ∧ less b a = true ∧ a ≠ b) ∨
      (less a b = false ∧ less b a = false ∧ a = b)) := by
  refine ⟨less_irrefl, fun a b c => less_trans, fun a b => ?_⟩
  cases hab : less a b
  · cases hba : less b a
    · exact Or.inr (Or.inr ⟨rfl, rfl, eq_of_not_less hab hba⟩)
    · refine Or.inr (Or.inl ⟨rfl, rfl, ?_⟩)
      rintro rfl
      rw [less_irrefl] at hba
      exact Bool.false_ne_true hba
  · refine Or.inl ⟨rfl, less_asymm hab, ?_⟩
    rintro rfl
    rw [less_irrefl] at hab
    exact Bool.false_ne_true hab

/-! ## The ranking sort -/

/-- An inserted element joins the list: the result is a rearrangement of
`a :: l`. -/
theorem stableInsert_perm (cmp : ScoredResult → ScoredResult → Bool) (a : ScoredResult)
    (l : List ScoredResult) : (stableInsert cmp a l).Perm (a :: l) := by
  induction l with
  | nil => exact List.Perm.refl _
  | cons b l ih =>
    unfold stableInsert
    split
    · exact ((List.Perm.cons b ih).trans (List.Perm.swap a b l))
    · exact List.Perm.refl _

/-- The sort rearranges its input. -/
theorem stable_sort_perm (cmp : ScoredResult → ScoredResult → Bool) (l : List ScoredResult) :
    (stable_sort cmp l).Perm l := by
  induction l with
  | nil => exact List.Perm.refl _
  | cons a l ih =>
    show (stableInsert cmp a (stable_sort cmp l)).Perm (a :: l)
    exact (stableInsert_perm cmp a _).trans (List.Perm.cons a ih)

/-- Insertion into a list in which no later element is ordered before an
earlier one keeps it so. -/
theorem stableInsert_sorted (a : ScoredResult) (l : List ScoredResult)
    (h : l.Pairwise (fun x y => less y x = false)) :
    (stableInsert less a l).Pairwise (fun x y => less y x = false) := by
  induction l with
  | nil => exact List.pairwise_singleton _ _
  | cons b l ih =>
    obtain ⟨hb, hl⟩ := List.pairwise_cons.mp h
    unfold stableInsert
    split
    · rename_i hba
      refine List.pairwise_cons.mpr ⟨fun x hx => ?_, ih hl⟩
      rcases List.mem_cons.mp ((stableInsert_perm less a l).subset hx) with rfl | hx
      · exact less_asymm hba
      · exact hb x hx
    · rename_i hba
      have hba' : less b a = false := by simpa using hba
      refine List.pairwise_cons.mpr ⟨fun x hx => ?_, h⟩
      rcases List.mem_cons.mp hx with rfl | hx
      · exact hba'
      · cases hxa : less x a
        · rfl
        · have hxb := hb x hx
          cases hab : less a b
          · rw [← eq_of_not_less hab hba', hxa] at hxb
            exact hxb
          · rw [less_trans hxa hab] at hxb
            exact hxb

/-- The sort leaves no later element ordered before an earlier one. -/
theorem stable_sort_sorted (l : List ScoredResult) :
    (stable_sort less l).Pairwise (fun x y => less y x = false) := by
  induction l with
  | nil => exact List.Pairwise.nil
  | cons a l ih => exact stableInsert_sorted a _ ih

/-- When `b` is not ordered before `a`, then `a` has the larger score, or the
same score and a lexicographically smaller or equal `(ordinal, identifier)`. -/
theorem rank_le_of_not_less {a b : ScoredResult} (h : less b a = false) :
    b.1 < a.1 ∨ (a.1 = b.1 ∧ (a.2.1 < b.2.1 ∨ (a.2.1 = b.2.1 ∧ a.2.2 ≤ b.2.2))) := by
  cases hab : less a b
  · have e := eq_of_not_less hab h
    subst e
    exact Or.inr ⟨rfl, Or.inr ⟨rfl, le_refl _⟩⟩
  · rcases (less_iff a b).mp hab with h1 | ⟨h1, h2 | ⟨h2, h3⟩⟩
    · exact Or.inl h1
    · exact Or.inr ⟨h1, Or.inl h2⟩
    · exact Or.inr ⟨h1, Or.inr ⟨h2, le_of_lt h3⟩⟩

/-- Claim C5. The list after the ranking sort is a permutation of the input; for
every pair `a` placed before `b`, either `a.score > b.score`, or the scores are
equal and `(a.ordinal, a.identifier) ≤ (b.ordinal, b.identifier)`
lexicographically; so among equal scores the smaller ordinal comes first. -/
theorem stable_sort_ranked (l : List ScoredResult) :
    (stable_sort less l).Perm l ∧
    (stable_sort less l).Pairwise (fun a b =>
      a.1 > b.1 ∨ (a.1 = b.1 ∧ (a.2.1 < b.2.1 ∨ (a.2.1 = b.2.1 ∧ a.2.2 ≤ b.2.2)))) ∧
    (stable_sort less l).Pairwise (fun a b => a.1 = b.1 → a.2.1 ≤ b.2.1) := by
  refine ⟨stable_sort_perm less l, ?_, ?_⟩
  · exact (stable_sort_sorted l).imp (fun h => rank_le_of_not_less h)
  · refine (stable_sort_sorted l).imp (fun {a b} h e => ?_)
    rcases rank_le_of_not_less h with h1 | ⟨_, h2 | ⟨h2, _⟩⟩
    · exact absurd h1 (by rw [e]; exact lt_irrefl _)
    · exact le_of_lt h2
    · exact le_of_eq h2

/-! ## Top-N output -/

/-- The output loop writes the leading entries of the vector. -/
theorem emitFirst_eq_take (limit : Int) (scores : List ScoredResult) :
    emitFirst limit scores = scores.take (min limit (scores.length : Int)).toNat := by
  unfold emitFirst
  have hle : (min limit (scores.length : Int)).toNat ≤ scores.length := by omega
  generalize (min limit (scores.length : Int)).toNat = n at hle
  apply List.ext_getElem
  · simp [hle]
  · intro i h1 h2
    simp only [List.length_map, List.length_range] at h1
    have hi : i < scores.length := lt_of_lt_of_le h1 hle
    simp [List.getElem?_eq_getElem hi]

/-! ## The sequential pipeline -/

/-- A loop that appends one value per element builds the mapped list. -/
theorem foldl_append_map {α β : Type} (f : α → β) (l : List α) (init : List β) :
    l.foldl (fun acc x => acc ++ [f x]) init = init ++ l.map f := by
  induction l generalizing init with
  | nil => simp
  | cons a l ih => simp [ih]

/-- A loop that appends a value only when a test passes builds the filtered
list. -/
theorem foldl_append_filterMap {α β : Type} (c : α → Bool) (g : α → β) (l : List α)
    (init : List β) :
    l.foldl (fun acc x => if c x then acc ++ [g x] else acc) init
      = init ++ l.filterMap (fun x => if c x then some (g x) else none) := by
  induction l generalizing init with
  | nil => simp
  | cons a l ih =>
    by_cases h : c a = true
    · simp [h, ih]
    · simp [h, ih]

/-- Reading a mapped list at an index is mapping the read. -/
theorem getD_map_pair {α β : Type} (f : α → β) (l : List α) (i : Nat) (d : α) :
    (l.map f).getD i (f d) = f (l.getD i d) := by
  induction l generalizing i with
  | nil => simp
  | cons a l ih =>
    cases i with
    | zero => simp
    | succ i => simp [ih]

/-- The sequential normalisation loop yields the normalised corpus. -/
theorem seq_preprocessedDocuments_eq (documents : List Document)
    (dictionary stopwords : List String) :
    Search.preprocessedDocuments documents dictionary stopwords
      = normalizedCorpus documents dictionary stopwords := by
  unfold Search.preprocessedDocuments normalizedCorpus
  rw [foldl_append_map (fun doc : Document => (doc.1, preProcessText doc.2 dictionary stopwords))]
  simp

/-- The sequential TF loop yields one table per document, in order. -/
theorem seq_tfDocs_eq {fl : ℚ → ℚ} (preprocessed : List Document) :
    Search.tfDocs fl preprocessed = preprocessed.map (fun doc => calculateTF fl doc.2) := by
  unfold Search.tfDocs
  rw [foldl_append_map (fun doc : Document => calculateTF fl doc.2)]
  simp

/-- The `scores` vector of the sequential pipeline holds the positive-score
documents in corpus order. -/
theorem seq_scores_eq {fl : ℚ → ℚ} (log10 : ℚ → ℚ) (documents : List Document)
    (dictionary stopwords : List String) (keywords : List String) :
    Search.scores fl log10 documents dictionary stopwords keywords
      = positiveEntries fl log10 documents dictionary stopwords keywords := by
  unfold Search.scores Search.scoreLoop positiveEntries
  simp only [seq_preprocessedDocuments_eq, seq_tfDocs_eq]
  have hlen : (normalizedCorpus documents dictionary stopwords).length = documents.length := by
    simp [normalizedCorpus]
  rw [hlen]
  have hstep := foldl_append_filterMap
    (fun i => decide (docScore fl log10 documents dictionary stopwords keywords i > 0))
    (scoredEntry fl log10 documents dictionary stopwords keywords)
    (List.range documents.length) []
  simp only [decide_eq_true_eq, List.nil_append] at hstep
  rw [← hstep]
  congr 1
  funext acc i
  have htf : (List.map (fun doc : Document => calculateTF fl doc.2)
        (normalizedCorpus documents dictionary stopwords)).getD i []
      = calculateTF fl ((normalizedCorpus documents dictionary stopwords).getD i ("", "")).2 := by
    have h := getD_map_pair (fun doc : Document => calculateTF fl doc.2)
      (normalizedCorpus documents dictionary stopwords) i ("", "")
    have hnil : calculateTF fl "" = [] := rfl
    simpa [hnil] using h
  have hid : ((normalizedCorpus documents dictionary stopwords).getD i ("", "")).1
      = (documents.getD i ("", "")).1 := by
    have h := getD_map_pair
      (fun doc : Document => (doc.1, preProcessText doc.2 dictionary stopwords)) documents i ("", "")
    have hnil : preProcessText "" dictionary stopwords = "" := rfl
    rw [hnil] at h
    unfold normalizedCorpus
    rw [h]
  simp only [htf, hid, docScore, scoredEntry]

/-- Every positive-score entry has a positive score and an ordinal in `1..D`. -/
theorem positiveEntries_bounds {fl : ℚ → ℚ} (log10 : ℚ → ℚ) (documents : List Document)
    (dictionary stopwords : List String) (keywords : List String) (e : ScoredResult)
    (he : e ∈ positiveEntries fl log10 documents dictionary stopwords keywords) :
    0 < e.1 ∧ 1 ≤ e.2.1 ∧ e.2.1 ≤ (documents.length : Int) := by
  unfold positiveEntries at he
  obtain ⟨i, hi, hsome⟩ := List.mem_filterMap.mp he
  have hi' : i < documents.length := List.mem_range.mp hi
  split at hsome
  · rename_i hpos
    have heq : scoredEntry fl log10 documents dictionary stopwords keywords i = e :=
      Option.some.inj hsome
    subst heq
    refine ⟨hpos, ?_, ?_⟩
    · show (1 : Int) ≤ (i : Int) + 1
      omega
    · show (i : Int) + 1 ≤ (documents.length : Int)
      omega
  · exact absurd hsome (by simp)

/-- Claim C2. In the sequential pipeline the list handed to the sort consists of
the entries `(score_i, i + 1, id_i)` of exactly the document indices `i` with
`score_i > 0`, one each and in corpus order; no entry has a score `≤ 0`, and
every ordinal lies in `1..D`. -/
theorem seq_scores_positive_in_corpus_order (fl log10 : ℚ → ℚ) (documents : List Document)
    (dictionary stopwords : List String) (keywords : List String) :
    Search.scores fl log10 documents dictionary stopwords keywords
      = (List.range documents.length).filterMap (fun i =>
          if docScore fl log10 documents dictionary stopwords keywords i > 0 then
            some (docScore fl log10 documents dictionary stopwords keywords i,
              ((i : Int) + 1, (documents.getD i ("", "")).1))
          else none) ∧
    (∀ e ∈ Search.scores fl log10 documents dictionary stopwords keywords,
      ¬ e.1 ≤ 0 ∧ 1 ≤ e.2.1 ∧ e.2.1 ≤ (documents.length : Int)) := by
  refine ⟨seq_scores_eq log10 documents dictionary stopwords keywords, fun e he => ?_⟩
  rw [seq_scores_eq] at he
  obtain ⟨h1, h2, h3⟩ := positiveEntries_bounds log10 documents dictionary stopwords keywords e he
  exact ⟨not_le.mpr h1, h2, h3⟩

/-- Claim C4. In the sequential pipeline the persisted result is the first
`min(N, L)` entries of the ranked list of length `L`, and the on-screen preview
is its first `min(5, L)` entries whatever `N` is; the ranked list is a
rearrangement of the positive-score documents, so when `N ≥ L` the persisted
result is the whole ranked list: the positive-score documents and nothing else. -/
theorem seq_main_top_n (fl log10 : ℚ → ℚ) (documents : List Document)
    (dictionary stopwords : List String) (numResults : Int) (keywords : List String) :
    (Search.main fl log10 documents dictionary stopwords numResults keywords).resultFile
      = (Search.ranked fl log10 documents dictionary stopwords keywords).take
          (min numResults
            ((Search.ranked fl log10 documents dictionary stopwords keywords).length : Int)).toNat ∧
    (Search.main fl log10 documents dictionary stopwords numResults keywords).screen
      = (Search.ranked fl log10 documents dictionary stopwords keywords).take
          (min 5 (Search.ranked fl log10 documents dictionary stopwords keywords).length) ∧
    (Search.ranked fl log10 documents dictionary stopwords keywords).Perm
      (positiveEntries fl log10 documents dictionary stopwords keywords) ∧
    (((Search.ranked fl log10 documents dictionary stopwords keywords).length : Int) ≤ numResults →
      (Search.main fl log10 documents dictionary stopwords numResults keywords).resultFile
        = Search.ranked fl log10 documents dictionary stopwords keywords) := by
  refine ⟨emitFirst_eq_take _ _, ?_, ?_, fun h => ?_⟩
  · show emitFirst 5 _ = _
    rw [emitFirst_eq_take]
    congr 1
    omega
  · exact (stable_sort_perm less (Search.scores fl log10 documents dictionary stopwords keywords)).trans
      (List.Perm.of_eq (seq_scores_eq log10 documents dictionary stopwords keywords))
  · show emitFirst numResults _ = _
    rw [emitFirst_eq_take, min_eq_right h]
    simp

/-- Claim C4, witness: the two-document corpus D1 = "cat dog cat", D2 = "dog bird"
with the query "cat" and N = 3, more than the one positive-score document. -/
theorem seq_main_top_n_witness :
    ((Search.ranked roundDouble log10Chord [("D1", "cat dog cat"), ("D2", "dog bird")]
        ["cat", "dog", "bird"] [] ["cat"]).length : Int) ≤ 3 ∧
    (Search.main roundDouble log10Chord [("D1", "cat dog cat"), ("D2", "dog bird")]
        ["cat", "dog", "bird"] [] 3 ["cat"]).resultFile
      = Search.ranked roundDouble log10Chord [("D1", "cat dog cat"), ("D2", "dog bird")]
        ["cat", "dog", "bird"] [] ["cat"] :=
  ⟨by decide!,
    (seq_main_top_n roundDouble log10Chord [("D1", "cat dog cat"), ("D2", "dog bird")]
      ["cat", "dog", "bird"] [] 3 ["cat"]).2.2.2 (by decide!)⟩

/-! ## The text normaliser -/

/-- Pushing a lowercased character onto the word in progress and then adding a
lowercased run is adding the lowercased longer run. -/
theorem push_append_lowerRun (w : String) (c : Char) (r : List Char) :
    w.push (tolower c) ++ lowerRun r = w ++ lowerRun (c :: r) := by
  apply String.ext
  simp [lowerRun, String.data_append, String.data_push]

/-- The state of the normaliser loop, finished by the flush of the last word. -/
theorem preProcess_loop (dictionary stopwords : List String) (cs : List Char) (cl w : String) :
    (if (cs.foldl (preProcessStep dictionary stopwords) (cl, w)).2 ≠ "" then
        flushWord dictionary stopwords
          (cs.foldl (preProcessStep dictionary stopwords) (cl, w)).1
          (cs.foldl (preProcessStep dictionary stopwords) (cl, w)).2
      else (cs.foldl (preProcessStep dictionary stopwords) (cl, w)).1)
      = cl ++ spaceTerminated
          ((((cs.splitOnP (fun c => !isalpha c)).map lowerRun).modifyHead (fun h => w ++ h)
            |>.filter (fun t => t ≠ "")).filter (survives dictionary stopwords)) := by
  induction cs generalizing cl w with
  | nil =>
    simp only [List.foldl_nil, List.splitOnP_nil, List.map_cons, List.map_nil,
      List.modifyHead_cons]
    have hw : w ++ lowerRun [] = w := by
      apply String.ext
      simp [lowerRun]
    rw [hw]
    by_cases hne : w = ""
    · simp [hne, spaceTerminated]
    · by_cases hs : survives dictionary stopwords w = true
      · have hs' : w ∈ dictionary ∧ w ∉ stopwords := by simpa [survives] using hs
        simp [hne, hs, flushWord, hs', spaceTerminated]
      · have hs' : ¬ (w ∈ dictionary ∧ w ∉ stopwords) := by simpa [survives] using hs
        simp [hne, hs, flushWord, hs', spaceTerminated]
  | cons c cs ih =>
    rw [List.foldl_cons, List.splitOnP_cons]
    by_cases hc : isalpha c = true
    · have hstep : preProcessStep dictionary stopwords (cl, w) c = (cl, w.push (tolower c)) := by
        simp [preProcessStep, hc]
      rw [hstep, ih]
      congr 3
      simp only [hc, Bool.not_true, Bool.false_eq_true, if_false]
      obtain ⟨r, rs, hrs⟩ := List.exists_cons_of_ne_nil
        (List.splitOnP_ne_nil (fun c => !isalpha c) cs)
      rw [hrs]
      simp only [List.map_cons, List.modifyHead_cons, push_append_lowerRun]
    · have hc' : isalpha c = false := by simpa using hc
      simp only [hc', Bool.not_false, if_true, List.map_cons, List.modifyHead_cons]
      have hw : w ++ lowerRun [] = w := by
        apply String.ext
        simp [lowerRun]
      rw [hw]
      have hid : ((cs.splitOnP (fun c => !isalpha c)).map lowerRun).modifyHead (fun h => "" ++ h)
          = (cs.splitOnP (fun c => !isalpha c)).map lowerRun := by
        obtain ⟨r, rs, hrs⟩ := List.exists_cons_of_ne_nil
          (List.splitOnP_ne_nil (fun c => !isalpha c) cs)
        rw [hrs]
        simp
      by_cases hne : w = ""
      · have hstep : preProcessStep dictionary stopwords (cl, w) c = (cl, "") := by
          simp [preProcessStep, hc', hne]
        rw [hstep, ih, hid]
        simp [hne]
      · have hstep : preProcessStep dictionary stopwords (cl, w) c
            = (flushWord dictionary stopwords cl w, "") := by
          simp [preProcessStep, hc', hne]
        rw [hstep, ih, hid]
        by_cases hs : survives dictionary stopwords w = true
        · have hs' : w ∈ dictionary ∧ w ∉ stopwords := by simpa [survives] using hs
          simp [hne, hs, flushWord, hs', spaceTerminated, String.append_assoc]
        · have hs' : ¬ (w ∈ dictionary ∧ w ∉ stopwords) := by simpa [survives] using hs
          simp [hne, hs, flushWord, hs', spaceTerminated]

/-- The normaliser returns every surviving token followed by one space. -/
theorem preProcessText_eq_spaceTerminated (text : String) (dictionary stopwords : List String) :
    preProcessText text dictionary stopwords
      = spaceTerminated (survivingTokens text dictionary stopwords) := by
  have h := preProcess_loop dictionary stopwords text.toList "" ""
  unfold preProcessText
  simp only [] at h ⊢
  rw [h]
  have hid : ((text.toList.splitOnP (fun c => !isalpha c)).map lowerRun).modifyHead
        (fun h => "" ++ h)
      = (text.toList.splitOnP (fun c => !isalpha c)).map lowerRun := by
    obtain ⟨r, rs, hrs⟩ := List.exists_cons_of_ne_nil
      (List.splitOnP_ne_nil (fun c => !isalpha c) text.toList)
    rw [hrs]
    simp
  rw [hid, String.empty_append]
  unfold survivingTokens alphaRuns
  congr 2
  rw [List.filter_map]
  congr 1
  apply List.filter_congr
  intro r _
  have : lowerRun r = "" ↔ r = [] := by
    constructor
    · intro hr
      have hd := congrArg String.data hr
      simpa [lowerRun] using hd
    · rintro rfl
      rfl
  simp [this]

/-- The letters are the characters numbered 65-90 and 97-122. -/
theorem isalpha_iff (c : Char) :
    isalpha c = true ↔ (65 ≤ c.toNat ∧ c.toNat ≤ 90) ∨ (97 ≤ c.toNat ∧ c.toNat ≤ 122) := by
  simp only [isalpha, Char.isAlpha, Char.isUpper, Char.isLower, Bool.or_eq_true,
    Bool.and_eq_true, decide_eq_true_eq, Char.toNat, ge_iff_le, UInt32.le_def]
  rfl

/-- The character numbered `n` for a lower-case letter number `n`. -/
theorem toNat_ofNat_lower (n : Nat) (h1 : 97 ≤ n) (h2 : n ≤ 122) : (Char.ofNat n).toNat = n := by
  interval_cases n <;> rfl

/-- A lowercased letter is not whitespace. -/
theorem isspace_tolower_of_isalpha (c : Char) (h : isalpha c = true) :
    isspace (tolower c) = false := by
  rw [isalpha_iff] at h
  unfold tolower Char.toLower
  simp only [ge_iff_le]
  split
  · have hn := toNat_ofNat_lower (c.toNat + 32) (by omega) (by omega)
    simp only [isspace, hn]
    simp
    omega
  · simp only [isspace]
    simp
    omega

/-- No piece of a split contains a separator. -/
theorem splitOnP_pieces {α : Type} (p : α → Bool) (l : List α) :
    ∀ r ∈ l.splitOnP p, ∀ x ∈ r, p x = false := by
  induction l with
  | nil =>
    intro r hr x hx
    simp only [List.splitOnP_nil, List.mem_singleton] at hr
    subst hr
    exact absurd hx (List.not_mem_nil x)
  | cons a l ih =>
    intro r hr x hx
    rw [List.splitOnP_cons] at hr
    split at hr
    · rcases List.mem_cons.mp hr with rfl | hr
      · exact absurd hx (List.not_mem_nil x)
      · exact ih r hr x hx
    · rename_i hpa
      obtain ⟨h, t, hht⟩ := List.exists_cons_of_ne_nil (List.splitOnP_ne_nil p l)
      rw [hht, List.modifyHead_cons] at hr
      rcases List.mem_cons.mp hr with rfl | hr
      · rcases List.mem_cons.mp hx with rfl | hx
        · simpa using hpa
        · exact ih h (by rw [hht]; exact List.mem_cons_self _ _) x hx
      · exact ih r (by rw [hht]; exact List.mem_cons_of_mem _ hr) x hx

/-- A surviving token is a non-empty word without whitespace. -/
theorem survivingTokens_wellformed (text : String) (dictionary stopwords : List String)
    (w : String) (hw : w ∈ survivingTokens text dictionary stopwords) :
    w ≠ "" ∧ ∀ c ∈ w.data, isspace c = false := by
  unfold survivingTokens alphaRuns at hw
  obtain ⟨hmem, -⟩ := List.mem_filter.mp hw
  obtain ⟨r, hr, rfl⟩ := List.mem_map.mp hmem
  obtain ⟨hr1, hr2⟩ := List.mem_filter.mp hr
  have hne : r ≠ [] := by simpa using hr2
  constructor
  · intro he
    have hd := congrArg String.data he
    exact hne (by simpa [lowerRun] using hd)
  · intro c hc
    simp only [lowerRun, List.mem_map] at hc
    obtain ⟨x, hx, rfl⟩ := hc
    have hsep := splitOnP_pieces (fun c => !isalpha c) text.toList r hr1 x hx
    exact isspace_tolower_of_isalpha x (by simpa using hsep)

/-! ## Stream extraction of a normalised text -/

/-- Reading a stretch without whitespace extends the word in progress. -/
theorem extract_word (w rest : List Char) (ws : List String) (cur : String)
    (hw : ∀ c ∈ w, isspace c = false) :
    (w ++ rest).foldl extractStep (ws, cur) = rest.foldl extractStep (ws, cur ++ String.mk w) := by
  induction w generalizing cur with
  | nil =>
    have : cur ++ String.mk [] = cur := by
      apply String.ext
      simp
    simp [this]
  | cons c w ih =>
    have hc : isspace c = false := hw c (List.mem_cons_self _ _)
    have hstep : extractStep (ws, cur) c = (ws, cur.push c) := by
      simp [extractStep, hc]
    rw [List.cons_append, List.foldl_cons, hstep, ih _ (fun x hx => hw x (List.mem_cons_of_mem _ hx))]
    congr 2
    apply String.ext
    simp

/-- Reading space-terminated well-formed tokens yields these tokens and leaves
no word in progress. -/
theorem extract_spaceTerminated (ts : List String) (ws : List String)
    (hts : ∀ t ∈ ts, t ≠ "" ∧ ∀ c ∈ t.data, isspace c = false) :
    (spaceTerminated ts).data.foldl extractStep (ws, "") = (ws ++ ts, "") := by
  induction ts generalizing ws with
  | nil => simp [spaceTerminated]
  | cons t ts ih =>
    obtain ⟨hne, hsp⟩ := hts t (List.mem_cons_self _ _)
    have hdata : (spaceTerminated (t :: ts)).data
        = t.data ++ (' ' :: (spaceTerminated ts).data) := by
      simp [spaceTerminated, String.data_append]
    rw [hdata, extract_word t.data _ ws "" hsp, List.foldl_cons]
    have ht : "" ++ String.mk t.data = t := by
      apply String.ext
      simp
    rw [ht]
    have hstep : extractStep (ws, t) ' ' = (ws ++ [t], "") := by
      have hspace : isspace ' ' = true := by decide
      simp [extractStep, hspace, hne]
    rw [hstep, ih _ (fun x hx => hts x (List.mem_cons_of_mem _ hx))]
    simp

/-- The words of a normalised text are the surviving tokens. -/
theorem extractWords_preProcessText (text : String) (dictionary stopwords : List String) :
    extractWords (preProcessText text dictionary stopwords)
      = survivingTokens text dictionary stopwords := by
  rw [preProcessText_eq_spaceTerminated]
  unfold extractWords
  simp only [String.toList]
  rw [extract_spaceTerminated _ [] (survivingTokens_wellformed text dictionary stopwords)]
  simp

/-- Claim C7. The whitespace-separated tokens of the normalised text are, in
order and with multiplicity, the lowercased maximal alphabetic runs of the text
that are in the vocabulary and not in the stopword set; a lowercased run is among
them if and only if it is in the vocabulary and not a stopword. -/
theorem preProcessText_tokens (text : String) (dictionary stopwords : List String) :
    extractWords (preProcessText text dictionary stopwords)
      = ((alphaRuns text).map lowerRun).filter
          (fun w => decide (w ∈ dictionary ∧ w ∉ stopwords)) ∧
    (∀ run ∈ alphaRuns text,
      (lowerRun run ∈ extractWords (preProcessText text dictionary stopwords)
        ↔ lowerRun run ∈ dictionary ∧ lowerRun run ∉ stopwords)) := by
  have h := extractWords_preProcessText text dictionary stopwords
  refine ⟨h, fun run hrun => ?_⟩
  rw [h]
  unfold survivingTokens
  rw [List.mem_filter]
  constructor
  · rintro ⟨-, hs⟩
    simpa [survives] using hs
  · intro hs
    exact ⟨List.mem_map_of_mem _ hrun, by simpa [survives] using hs⟩

/-- Claim C8, counterexample. With vocabulary {cat, dog, bird} and no stopwords
the normaliser does not return "cat dog cat" for "cat dog cat", nor "dog bird" for
"dog bird": the result carries a space after the last token. -/
theorem preProcessText_trailing_space :
    preProcessText "cat dog cat" ["cat", "dog", "bird"] [] ≠ "cat dog cat" ∧
    preProcessText "dog bird" ["cat", "dog", "bird"] [] ≠ "dog bird" ∧
    preProcessText "cat dog cat" ["cat", "dog", "bird"] []
      ≠ " ".intercalate (survivingTokens "cat dog cat" ["cat", "dog", "bird"] []) := by
  decide

/-- Claim C8, amended. The string returned by the normaliser is the surviving
tokens each followed by one space, so a non-empty result ends in a space; with
vocabulary {cat, dog, bird} and no stopwords, "cat dog cat" gives "cat dog cat "
and "dog bird" gives "dog bird ". -/
theorem preProcessText_space_terminated :
    (∀ (text : String) (dictionary stopwords : List String),
      preProcessText text dictionary stopwords
        = spaceTerminated (((alphaRuns text).map lowerRun).filter
            (fun w => decide (w ∈ dictionary ∧ w ∉ stopwords)))) ∧
    preProcessText "cat dog cat" ["cat", "dog", "bird"] [] = "cat dog cat " ∧
    preProcessText "dog bird" ["cat", "dog", "bird"] [] = "dog bird " :=
  ⟨preProcessText_eq_spaceTerminated, by decide, by decide⟩

/-- Claim C9. A non-alphabetic character after the text changes nothing: the
token that ends at end-of-input is flushed and filtered as if a separator
followed it. -/
theorem preProcessText_push_separator (text : String) (dictionary stopwords : List String)
    (s : Char) (hs : isalpha s = false) :
    preProcessText text dictionary stopwords
      = preProcessText (text.push s) dictionary stopwords := by
  unfold preProcessText
  simp only [String.toList, String.data_push, List.foldl_append, List.foldl_cons, List.foldl_nil]
  generalize text.data.foldl (preProcessStep dictionary stopwords) ("", "") = st
  by_cases hne : st.2 = ""
  · simp [preProcessStep, hs, hne]
  · simp [preProcessStep, hs, hne]

/-- Claim C9, witness: the text "cat dog" followed by an exclamation mark. -/
theorem preProcessText_push_separator_witness :
    isalpha '!' = false ∧
    preProcessText "cat dog" ["cat", "dog"] []
      = preProcessText ("cat dog".push '!') ["cat", "dog"] [] :=
  ⟨by decide, preProcessText_push_separator "cat dog" ["cat", "dog"] [] '!' (by decide)⟩

/-! ## Association lists -/

/-- A key is looked up successfully exactly when it is a key of the table. -/
theorem mapFind_isSome_iff {β : Type} (m : List (String × β)) (k : String) :
    (mapFind m k).isSome = true ↔ k ∈ m.map Prod.fst := by
  induction m with
  | nil => simp [mapFind]
  | cons p m ih =>
    obtain ⟨k', v⟩ := p
    unfold mapFind
    by_cases h : k' = k
    · simp [h]
    · simp only [h, if_false, ih, List.map_cons, List.mem_cons]
      constructor
      · exact Or.inr
      · rintro (h' | h')
        · exact absurd h'.symm h
        · exact h'

/-- Rewriting the values of a table rewrites what a lookup finds. -/
theorem mapFind_map {β γ : Type} (f : β → γ) (m : List (String × β)) (k : String) :
    mapFind (m.map (fun pair => (pair.1, f pair.2))) k = (mapFind m k).map f := by
  induction m with
  | nil => simp [mapFind]
  | cons p m ih =>
    obtain ⟨k', v⟩ := p
    simp only [List.map_cons, mapFind]
    split
    · simp
    · exact ih

/-- The keys after `m[k]++`: the key `k` is added at the end when it is new. -/
theorem mapIncr_keys {β : Type} [Zero β] [One β] [Add β] (m : List (String × β)) (k : String) :
    (mapIncr m k).map Prod.fst
      = if k ∈ m.map Prod.fst then m.map Prod.fst else m.map Prod.fst ++ [k] := by
  induction m with
  | nil => simp [mapIncr]
  | cons p m ih =>
    obtain ⟨k', v⟩ := p
    unfold mapIncr
    by_cases h : k' = k
    · simp [h]
    · have h' : ¬ k = k' := fun e => h e.symm
      simp only [h, if_false, List.map_cons, ih, List.mem_cons, h', false_or]
      split <;> simp

/-- The statement `m[k]++` keeps the keys distinct. -/
theorem mapIncr_nodup {β : Type} [Zero β] [One β] [Add β] (m : List (String × β)) (k : String)
    (h : (m.map Prod.fst).Nodup) : ((mapIncr m k).map Prod.fst).Nodup := by
  rw [mapIncr_keys]
  split
  · exact h
  · rename_i hk
    exact List.Nodup.append h (List.nodup_singleton k) (by
      intro x hx hx'
      rw [List.mem_singleton] at hx'
      exact hk (hx' ▸ hx))

/-- The lookup after `m[k]++`: the value at `k` is one more than before, a missing
value counting as zero; other keys are untouched. -/
theorem mapFind_mapIncr {β : Type} [Zero β] [One β] [Add β] (m : List (String × β))
    (k k' : String) :
    mapFind (mapIncr m k) k'
      = if k = k' then some ((mapFind m k).getD 0 + 1) else mapFind m k' := by
  induction m with
  | nil =>
    by_cases h : k = k'
    · simp [mapIncr, mapFind, h]
    · simp [mapIncr, mapFind, h]
  | cons p m ih =>
    obtain ⟨k₀, v⟩ := p
    unfold mapIncr
    by_cases h0 : k₀ = k
    · subst h0
      by_cases h : k₀ = k'
      · simp [mapFind, h]
      · simp [mapFind, h]
    · by_cases h : k = k'
      · subst h
        simp [mapFind, h0, ih]
      · by_cases h1 : k₀ = k'
        · subst h1
          simp [mapFind, h0, h]
        · simp [mapFind, h0, h, h1, ih]

/-- The counting loop keeps the keys distinct. -/
theorem foldl_mapIncr_nodup {β : Type} [Zero β] [One β] [Add β] (ws : List String)
    (m : List (String × β)) (h : (m.map Prod.fst).Nodup) :
    ((ws.foldl mapIncr m).map Prod.fst).Nodup := by
  induction ws generalizing m with
  | nil => exact h
  | cons w ws ih => exact ih _ (mapIncr_nodup m w h)

/-- The keys after the counting loop: the old keys and the words counted. -/
theorem foldl_mapIncr_mem_keys {β : Type} [Zero β] [One β] [Add β] (ws : List String)
    (m : List (String × β)) (k : String) :
    k ∈ (ws.foldl mapIncr m).map Prod.fst ↔ k ∈ m.map Prod.fst ∨ k ∈ ws := by
  induction ws generalizing m with
  | nil => simp
  | cons w ws ih =>
    rw [List.foldl_cons, ih, mapIncr_keys]
    split
    · rename_i hw
      constructor
      · rintro (h | h)
        · exact Or.inl h
        · exact Or.inr (List.mem_cons_of_mem _ h)
      · rintro (h | h)
        · exact Or.inl h
        · rcases List.mem_cons.mp h with rfl | h
          · exact Or.inl hw
          · exact Or.inr h
    · simp only [List.mem_append, List.mem_singleton, List.mem_cons]
      tauto

/-- The value after the counting loop: the old value, a missing one counting as
zero, plus the number of occurrences counted. -/
theorem mapFind_foldl_mapIncr {β : Type} [AddCommMonoidWithOne β] (ws : List String)
    (m : List (String × β)) (k : String) (hk : k ∈ ws) :
    mapFind (ws.foldl mapIncr m) k = some ((mapFind m k).getD 0 + (ws.count k : β)) := by
  induction ws generalizing m with
  | nil => exact absurd hk (List.not_mem_nil k)
  | cons w ws ih =>
    rw [List.foldl_cons]
    by_cases hmem : k ∈ ws
    · rw [ih _ hmem, mapFind_mapIncr]
      by_cases hw : w = k
      · subst hw
        simp [add_assoc, add_comm]
      · have hw' : (w == k) = false := by simpa using hw
        simp [hw, List.count_cons, hw']
    · have hw : w = k := by
        rcases List.mem_cons.mp hk with h | h
        · exact h.symm
        · exact absurd h hmem
      subst hw
      have hfix : ∀ m' : List (String × β), mapFind (ws.foldl mapIncr m') w = mapFind m' w := by
        intro m'
        clear ih hk
        induction ws generalizing m' with
        | nil => rfl
        | cons x xs ihx =>
          have hx : ¬ x = w := fun e => hmem (e ▸ List.mem_cons_self _ _)
          rw [List.foldl_cons, ihx (fun h => hmem (List.mem_cons_of_mem _ h)), mapFind_mapIncr]
          simp [hx]
      rw [hfix, mapFind_mapIncr]
      simp [List.count_eq_zero_of_not_mem hmem]

/-! ## The term-frequency table -/

/-- The counting loop of `calculateTF` counts into the table and counts the
words. -/
theorem countWords_eq (ws : List String) :
    countWords ws = (ws.foldl mapIncr [], (ws.length : Int)) := by
  have hgen : ∀ (m : TermTable) (n : Int),
      ws.foldl (fun (st : TermTable × Int) word => (mapIncr st.1 word, st.2 + 1)) (m, n)
        = (ws.foldl mapIncr m, n + (ws.length : Int)) := by
    induction ws with
    | nil => intro m n; simp
    | cons w ws ih =>
      intro m n
      rw [List.foldl_cons, ih]
      simp only [List.foldl_cons, List.length_cons, Nat.cast_add, Nat.cast_one]
      congr 1
      omega
  have h := hgen [] 0
  rw [zero_add] at h
  exact h

/-- The table of `calculateTF`: the counts of the words, each divided by the
number of words and multiplied by 100, with a rounding after either operation. -/
theorem calculateTF_eq {fl : ℚ → ℚ} (text : String) :
    calculateTF fl text
      = ((extractWords text).foldl mapIncr ([] : TermTable)).map
          (fun pair => (pair.1, fl (fl (pair.2 / ((extractWords text).length : ℚ)) * 100))) := by
  unfold calculateTF
  simp only [countWords_eq, Int.cast_natCast]

/-- The value of the TF table at a token of the text: its count divided by the
number of tokens and multiplied by 100, with a rounding after either operation. -/
theorem mapFind_calculateTF_mem {fl : ℚ → ℚ} (text : String) (w : String)
    (hw : w ∈ extractWords text) :
    mapFind (calculateTF fl text) w
      = some (fl (fl ((((extractWords text).count w : ℕ) : ℚ)
          / ((extractWords text).length : ℚ)) * 100)) := by
  rw [calculateTF_eq,
    mapFind_map (fun v : ℚ => fl (fl (v / ((extractWords text).length : ℚ)) * 100)),
    mapFind_foldl_mapIncr _ _ _ hw]
  simp [mapFind]

/-- The keys of a TF table are the tokens of the text. -/
theorem mem_keys_calculateTF {fl : ℚ → ℚ} (text : String) (w : String) :
    w ∈ (calculateTF fl text).map Prod.fst ↔ w ∈ extractWords text := by
  have hkeys : (calculateTF fl text).map Prod.fst
      = ((extractWords text).foldl mapIncr ([] : TermTable)).map Prod.fst := by
    rw [calculateTF_eq, List.map_map]
    rfl
  rw [hkeys, foldl_mapIncr_mem_keys]
  simp

/-- A word that is not among the tokens of a text has no entry in its TF table. -/
theorem mapFind_calculateTF_none {fl : ℚ → ℚ} (text : String) (w : String)
    (hw : w ∉ extractWords text) : mapFind (calculateTF fl text) w = none := by
  have hnot : ¬ (mapFind (calculateTF fl text) w).isSome = true := by
    rw [mapFind_isSome_iff, mem_keys_calculateTF]
    exact hw
  cases hfind : mapFind (calculateTF fl text) w with
  | none => rfl
  | some v => rw [hfind] at hnot; exact absurd rfl hnot

/-- Two loop bodies that agree on the elements of a list give the same loop. -/
theorem foldl_congr_mem {σ α : Type} (f g : σ → α → σ) (l : List α) (init : σ)
    (h : ∀ s, ∀ x ∈ l, f s x = g s x) : l.foldl f init = l.foldl g init := by
  induction l generalizing init with
  | nil => rfl
  | cons a l ih =>
    rw [List.foldl_cons, List.foldl_cons, h init a (List.mem_cons_self _ _)]
    exact ih _ (fun s x hx => h s x (List.mem_cons_of_mem _ hx))

/-- The indices below `a + k` are those below `a` followed by the `k` indices
from `a` on. -/
theorem range_split (a k : Nat) : List.range (a + k) = List.range a ++ List.range' a k := by
  rw [List.range_eq_range', List.range_eq_range']
  have h := List.range'_append 0 a k 1
  simp only [Nat.one_mul, Nat.zero_add] at h
  rw [h, Nat.add_comm]

/-- The first `w` full batches of size `b` run the loop body over the indices
below `w * b`, in order. -/
theorem full_batches_foldl {σ : Type} (b : Nat) (body : σ → Nat → σ) (init : σ) (w : Nat) :
    (List.range w).foldl
        (fun s i => SearchP.forRange (SearchP.batchStart b i) ((i + 1) * b) body s) init
      = (List.range (w * b)).foldl body init := by
  induction w with
  | zero => simp
  | succ w ih =>
    rw [List.range_succ, List.foldl_append, ih, List.foldl_cons, List.foldl_nil]
    unfold SearchP.forRange SearchP.batchStart
    have hlen : (w + 1) * b - w * b = b := by
      rw [Nat.add_mul, Nat.one_mul]
      omega
    have hsplit : List.range ((w + 1) * b) = List.range (w * b) ++ List.range' (w * b) b := by
      rw [← range_split, Nat.add_mul, Nat.one_mul]
    rw [hlen, hsplit, List.foldl_append]

/-- The last worker starts inside the vector: `(W - 1) * (D / W) ≤ D`. -/
theorem last_batch_start_le (numThreads size : Nat) :
    (numThreads - 1) * (size / numThreads) ≤ size :=
  le_trans (Nat.mul_le_mul_right _ (Nat.sub_le numThreads 1)) (Nat.mul_div_le size numThreads)

/-- For a worker count of at least one and a batch size that lets the last
worker start inside the vector, the batches together run the loop body once over
every index below `size`, in increasing order. -/
theorem runBatches_eq_foldl {σ : Type} (numThreads batchSize size : Nat) (hW : 1 ≤ numThreads)
    (hle : (numThreads - 1) * batchSize ≤ size) (body : σ → Nat → σ) (init : σ) :
    SearchP.runBatches numThreads batchSize size
        (fun shared start stop => SearchP.forRange start stop body shared) init
      = (List.range size).foldl body init := by
  obtain ⟨w, rfl⟩ : ∃ w, numThreads = w + 1 := ⟨numThreads - 1, by omega⟩
  have hle' : w * batchSize ≤ size := by simpa using hle
  unfold SearchP.runBatches
  rw [List.range_succ, List.foldl_append, List.foldl_cons, List.foldl_nil]
  have hfull : (List.range w).foldl (fun shared i =>
        SearchP.forRange (SearchP.batchStart batchSize i)
          (SearchP.batchEnd (w + 1) batchSize size i) body shared) init
      = (List.range (w * batchSize)).foldl body init := by
    rw [← full_batches_foldl]
    apply foldl_congr_mem
    intro s i hi
    have hiw : i ≠ w := Nat.ne_of_lt (List.mem_range.mp hi)
    simp [SearchP.batchEnd, hiw]
  rw [hfull]
  have hlast : SearchP.batchEnd (w + 1) batchSize size w = size := by
    simp [SearchP.batchEnd]
  rw [hlast]
  unfold SearchP.forRange SearchP.batchStart
  have hsplit : List.range size
      = List.range (w * batchSize) ++ List.range' (w * batchSize) (size - w * batchSize) := by
    rw [← range_split, Nat.add_sub_cancel' hle']
  rw [hsplit, List.foldl_append]

/-- Writing slot `i` for the indices that pass a test, in increasing order, into a
pre-sized vector of defaults leaves the written value in the slots that pass and
the default in the others. -/
theorem foldl_set_replicate {α : Type} (c : Nat → Prop) [DecidablePred c] (f : Nat → α)
    (d : α) (n : Nat) :
    (List.range n).foldl (fun l i => if c i then l.set i (f i) else l) (List.replicate n d)
      = (List.range n).map (fun i => if c i then f i else d) := by
  have hgen : ∀ m, m ≤ n →
      (List.range m).foldl (fun l i => if c i then l.set i (f i) else l) (List.replicate n d)
        = (List.range m).map (fun i => if c i then f i else d) ++ List.replicate (n - m) d := by
    intro m
    induction m with
    | zero => intro _; simp
    | succ m ih =>
      intro hm
      rw [List.range_succ, List.foldl_append, ih (by omega), List.foldl_cons, List.foldl_nil,
        List.map_append, List.map_cons, List.map_nil]
      have hrep : List.replicate (n - m) d = d :: List.replicate (n - (m + 1)) d := by
        have : n - m = (n - (m + 1)) + 1 := by omega
        rw [this, List.replicate_succ]
      rw [hrep]
      by_cases hc : c m
      · simp only [hc, if_true]
        rw [List.set_append]
        simp
      · simp only [hc, if_false]
        simp
  have h := hgen n (le_refl n)
  simpa using h

/-- Writing every slot, in increasing order, into a pre-sized vector fills it with
the written values. -/
theorem foldl_set_all {α : Type} (f : Nat → α) (d : α) (n : Nat) :
    (List.range n).foldl (fun l i => l.set i (f i)) (List.replicate n d)
      = (List.range n).map f := by
  have h := foldl_set_replicate (fun _ => True) f d n
  simpa using h

/-- Reading a vector at every index in turn traverses the vector. -/
theorem map_range_getD {α β : Type} (f : α → β) (l : List α) (d : α) :
    (List.range l.length).map (fun i => f (l.getD i d)) = l.map f := by
  apply List.ext_getElem
  · simp
  · intro i h1 h2
    have hi : i < l.length := by simpa using h2
    simp [List.getElem?_eq_getElem hi]

/-! ## The batched pipeline -/

/-- For a worker count of at least one, the first batched stage yields the
normalised corpus. -/
theorem par_preprocessedDocuments_eq (numThreads batchSize : Nat) (hW : 1 ≤ numThreads)
    (documents : List Document) (hle : (numThreads - 1) * batchSize ≤ documents.length)
    (dictionary stopwords : List String) :
    SearchP.preprocessedDocuments numThreads batchSize documents dictionary stopwords
      = normalizedCorpus documents dictionary stopwords := by
  unfold SearchP.preprocessedDocuments
  have hworker : SearchP.preprocessParallel documents dictionary stopwords
      = fun shared start stop => SearchP.forRange start stop (fun pre i =>
          pre.set i ((documents.getD i ("", "")).1,
            preProcessText (documents.getD i ("", "")).2 dictionary stopwords)) shared := rfl
  rw [hworker, runBatches_eq_foldl _ _ _ hW hle, foldl_set_all]
  exact map_range_getD (fun doc : Document => (doc.1, preProcessText doc.2 dictionary stopwords))
    documents ("", "")

/-- For a worker count of at least one, the second batched stage yields one TF
table per document, in order. -/
theorem par_tfDocs_eq {fl : ℚ → ℚ} (numThreads batchSize : Nat) (hW : 1 ≤ numThreads)
    (preprocessed : List Document) (hle : (numThreads - 1) * batchSize ≤ preprocessed.length) :
    SearchP.tfDocs fl numThreads batchSize preprocessed
      = preprocessed.map (fun doc => calculateTF fl doc.2) := by
  unfold SearchP.tfDocs
  have hworker : SearchP.calculateTFParallel fl preprocessed
      = fun shared start stop => SearchP.forRange start stop (fun tfs i =>
          tfs.set i (calculateTF fl (preprocessed.getD i ("", "")).2)) shared := rfl
  rw [hworker, runBatches_eq_foldl _ _ _ hW hle, foldl_set_all]
  exact map_range_getD (fun doc : Document => calculateTF fl doc.2) preprocessed ("", "")

/-- The TF table read at index `i` from the vector of tables is the table of the
normalised text at index `i`. -/
theorem tfDocs_getD {fl : ℚ → ℚ} (documents : List Document) (dictionary stopwords : List String) (i : Nat) :
    (List.map (fun doc : Document => calculateTF fl doc.2)
        (normalizedCorpus documents dictionary stopwords)).getD i []
      = calculateTF fl ((normalizedCorpus documents dictionary stopwords).getD i ("", "")).2 := by
  have h := getD_map_pair (fun doc : Document => calculateTF fl doc.2)
    (normalizedCorpus documents dictionary stopwords) i ("", "")
  have hnil : calculateTF fl "" = [] := rfl
  simpa [hnil] using h

/-- The identifier read at index `i` from the normalised corpus is that of the
document at index `i`. -/
theorem normalizedCorpus_getD_fst (documents : List Document)
    (dictionary stopwords : List String) (i : Nat) :
    ((normalizedCorpus documents dictionary stopwords).getD i ("", "")).1
      = (documents.getD i ("", "")).1 := by
  have h := getD_map_pair
    (fun doc : Document => (doc.1, preProcessText doc.2 dictionary stopwords)) documents i ("", "")
  have hnil : preProcessText "" dictionary stopwords = "" := rfl
  rw [hnil] at h
  unfold normalizedCorpus
  rw [h]

/-- For a worker count of at least one, the pre-sized `scores` vector of the
batched pipeline holds, at every document index, that document's slot: its scored
result when the score is positive and the value-initialised entry otherwise. -/
theorem par_scores_eq {fl : ℚ → ℚ} (log10 : ℚ → ℚ) (numThreads : Nat) (hW : 1 ≤ numThreads)
    (documents : List Document) (dictionary stopwords : List String) (keywords : List String) :
    SearchP.scores fl log10 numThreads documents dictionary stopwords keywords
      = (List.range documents.length).map
          (scoreSlot fl log10 documents dictionary stopwords keywords) := by
  have hle := last_batch_start_le numThreads documents.length
  have hlen : (normalizedCorpus documents dictionary stopwords).length = documents.length := by
    simp [normalizedCorpus]
  unfold SearchP.scores
  simp only [par_preprocessedDocuments_eq _ _ hW documents hle]
  rw [par_tfDocs_eq _ _ hW _ (by rw [hlen]; exact hle), hlen]
  have hworker : SearchP.calculateTFIDFScoreParallel fl
        (List.map (fun doc : Document => calculateTF fl doc.2)
          (normalizedCorpus documents dictionary stopwords))
        (calculateIDF log10 (normalizedCorpus documents dictionary stopwords)) keywords
        (normalizedCorpus documents dictionary stopwords)
      = fun shared start stop => SearchP.forRange start stop (fun scores i =>
          if docScore fl log10 documents dictionary stopwords keywords i > 0 then
            scores.set i (scoredEntry fl log10 documents dictionary stopwords keywords i)
          else scores) shared := by
    funext shared start stop
    unfold SearchP.calculateTFIDFScoreParallel
    congr 1
    funext scores i
    simp only [tfDocs_getD, normalizedCorpus_getD_fst, docScore, scoredEntry]
  rw [hworker, runBatches_eq_foldl _ _ _ hW hle]
  exact foldl_set_replicate
    (fun i => docScore fl log10 documents dictionary stopwords keywords i > 0)
    (scoredEntry fl log10 documents dictionary stopwords keywords) (0, (0, "")) documents.length

/-! ## Queries without a match -/

/-- A query none of whose keywords has an entry in the TF table scores zero. -/
theorem calculateTFIDFScore_absent {fl : ℚ → ℚ} (tf idf : TermTable) (keywords : List String)
    (h : ∀ k ∈ keywords, mapFind tf k = none) : calculateTFIDFScore fl tf idf keywords = 0 := by
  unfold calculateTFIDFScore
  generalize (0 : ℚ) = init
  induction keywords generalizing init with
  | nil => rfl
  | cons k ks ih =>
    rw [List.foldl_cons, h k (List.mem_cons_self _ _)]
    exact ih (fun k' hk' => h k' (List.mem_cons_of_mem _ hk')) init

/-- When no keyword occurs in any normalised document, every document scores
zero. -/
theorem docScore_absent {fl : ℚ → ℚ} (log10 : ℚ → ℚ) (documents : List Document)
    (dictionary stopwords : List String) (keywords : List String)
    (habs : ∀ k ∈ keywords, ∀ doc ∈ documents,
      k ∉ extractWords (preProcessText doc.2 dictionary stopwords)) (i : Nat) :
    docScore fl log10 documents dictionary stopwords keywords i = 0 := by
  unfold docScore
  apply calculateTFIDFScore_absent
  intro k hk
  apply mapFind_calculateTF_none
  by_cases hi : i < (normalizedCorpus documents dictionary stopwords).length
  · have hmem : (normalizedCorpus documents dictionary stopwords).getD i ("", "")
        ∈ normalizedCorpus documents dictionary stopwords := by
      rw [List.getD_eq_getElem _ _ hi]
      exact List.getElem_mem hi
    unfold normalizedCorpus at hmem
    obtain ⟨doc, hdoc, heq⟩ := List.mem_map.mp hmem
    unfold normalizedCorpus
    rw [← heq]
    exact habs k hk doc hdoc
  · rw [List.getD_eq_default _ _ (not_lt.mp hi)]
    have hnil : extractWords "" = [] := by decide
    rw [hnil]
    exact List.not_mem_nil k

/-- The sorted `scores` vector of the batched pipeline has one entry per
document, whatever the scores are. -/
theorem par_ranked_length {fl : ℚ → ℚ} (log10 : ℚ → ℚ) (numThreads : Nat) (hW : 1 ≤ numThreads)
    (documents : List Document) (dictionary stopwords : List String) (keywords : List String) :
    (SearchP.ranked fl log10 numThreads documents dictionary stopwords keywords).length
      = documents.length := by
  unfold SearchP.ranked
  rw [(stable_sort_perm less _).length_eq, par_scores_eq _ _ hW]
  simp

/-- For a worker count of at least one and a query none of whose keywords occurs
in any normalised document, the batched pipeline persists `min(N, D)`
value-initialised entries `(0, (0, ""))`. -/
theorem par_absent_resultFile {fl : ℚ → ℚ} (log10 : ℚ → ℚ) (numThreads : Nat) (hW : 1 ≤ numThreads)
    (documents : List Document) (dictionary stopwords : List String) (numResults : Int)
    (keywords : List String)
    (habs : ∀ k ∈ keywords, ∀ doc ∈ documents,
      k ∉ extractWords (preProcessText doc.2 dictionary stopwords)) :
    (SearchP.main fl log10 numThreads documents dictionary stopwords numResults keywords).resultFile
      = List.replicate (min numResults (documents.length : Int)).toNat (0, (0, "")) := by
  have hscores : SearchP.scores fl log10 numThreads documents dictionary stopwords keywords
      = List.replicate documents.length (0, (0, "")) := by
    rw [par_scores_eq _ _ hW]
    have hslot : scoreSlot fl log10 documents dictionary stopwords keywords
        = fun _ => (0, (0, "")) := by
      funext i
      unfold scoreSlot
      rw [docScore_absent log10 documents dictionary stopwords keywords habs i]
      simp
    rw [hslot, List.map_const']
    simp
  have hranked : SearchP.ranked fl log10 numThreads documents dictionary stopwords keywords
      = List.replicate documents.length (0, (0, "")) := by
    have hperm := stable_sort_perm less
      (SearchP.scores fl log10 numThreads documents dictionary stopwords keywords)
    unfold SearchP.ranked
    rw [hscores] at hperm ⊢
    exact List.perm_replicate.mp hperm
  show emitFirst numResults _ = _
  rw [emitFirst_eq_take, hranked]
  simp only [List.length_replicate, List.take_replicate]
  congr 1
  omega

/-- When no keyword occurs in any normalised document, the sequential pipeline
persists nothing. -/
theorem seq_absent_resultFile {fl : ℚ → ℚ} (log10 : ℚ → ℚ) (documents : List Document)
    (dictionary stopwords : List String) (numResults : Int) (keywords : List String)
    (habs : ∀ k ∈ keywords, ∀ doc ∈ documents,
      k ∉ extractWords (preProcessText doc.2 dictionary stopwords)) :
    (Search.main fl log10 documents dictionary stopwords numResults keywords).resultFile = [] := by
  have hscores : Search.scores fl log10 documents dictionary stopwords keywords = [] := by
    rw [seq_scores_eq]
    unfold positiveEntries
    rw [List.filterMap_eq_nil_iff]
    intro i _
    rw [docScore_absent log10 documents dictionary stopwords keywords habs i]
    simp
  show emitFirst numResults (stable_sort less (Search.scores _ _ _ _ _ _)) = _
  rw [hscores, emitFirst_eq_take]
  simp [stable_sort]

/-- Claim C3, the code at a failing input. Corpus D1 = "cat dog cat",
D2 = "dog bird", vocabulary {cat, dog, bird}, no stopwords, two workers, N = 1
and the query "fish", which occurs in no document: the batched pipeline persists
one value-initialised entry `(0, (0, ""))` where the sequential pipeline persists
nothing. -/
theorem par_absent_keyword_persists_padding : ∀ fl log10 : ℚ → ℚ,
    (SearchP.main fl log10 2 [("D1", "cat dog cat"), ("D2", "dog bird")] ["cat", "dog", "bird"] []
        1 ["fish"]).resultFile = [(0, (0, ""))] ∧
    (Search.main fl log10 [("D1", "cat dog cat"), ("D2", "dog bird")] ["cat", "dog", "bird"] []
        1 ["fish"]).resultFile = [] := by
  intro fl log10
  have habs : ∀ k ∈ ["fish"], ∀ doc ∈ [(("D1", "cat dog cat") : Document), ("D2", "dog bird")],
      k ∉ extractWords (preProcessText doc.2 ["cat", "dog", "bird"] []) := by decide
  constructor
  · rw [par_absent_resultFile log10 2 (by decide) _ _ _ 1 _ habs]
    rfl
  · exact seq_absent_resultFile log10 _ _ _ 1 _ habs

/-- Claim C1, the code at a failing input. Corpus D1 = "cat dog cat",
D2 = "dog bird", vocabulary {cat, dog, bird}, no stopwords, query "cat", N = 2
and two workers: the batched pipeline persists two entries, one of them the
value-initialised `(0, (0, ""))`, and the sequential pipeline persists at most
one entry and never that one; the two persisted lists differ. -/
theorem par_seq_resultFile_differ : ∀ fl log10 : ℚ → ℚ,
    (SearchP.main fl log10 2 [("D1", "cat dog cat"), ("D2", "dog bird")] ["cat", "dog", "bird"] []
        2 ["cat"]).resultFile.length = 2 ∧
    (0, (0, "")) ∈ (SearchP.main fl log10 2 [("D1", "cat dog cat"), ("D2", "dog bird")]
        ["cat", "dog", "bird"] [] 2 ["cat"]).resultFile ∧
    (Search.main fl log10 [("D1", "cat dog cat"), ("D2", "dog bird")] ["cat", "dog", "bird"] []
        2 ["cat"]).resultFile.length ≤ 1 ∧
    (0, (0, "")) ∉ (Search.main fl log10 [("D1", "cat dog cat"), ("D2", "dog bird")]
        ["cat", "dog", "bird"] [] 2 ["cat"]).resultFile ∧
    (SearchP.main fl log10 2 [("D1", "cat dog cat"), ("D2", "dog bird")] ["cat", "dog", "bird"] []
        2 ["cat"]).resultFile
      ≠ (Search.main fl log10 [("D1", "cat dog cat"), ("D2", "dog bird")] ["cat", "dog", "bird"] []
        2 ["cat"]).resultFile := by
  intro fl log10
  have hscore : docScore fl log10 [("D1", "cat dog cat"), ("D2", "dog bird")]
      ["cat", "dog", "bird"] [] ["cat"] 1 = 0 := by
    apply calculateTFIDFScore_absent
    intro k hk
    apply mapFind_calculateTF_none
    rw [List.mem_singleton.mp hk]
    decide
  have hparlen := @par_ranked_length fl log10 2 (by decide)
    [("D1", "cat dog cat"), ("D2", "dog bird")] ["cat", "dog", "bird"] [] ["cat"]
  have hpar : (SearchP.main fl log10 2 [("D1", "cat dog cat"), ("D2", "dog bird")]
        ["cat", "dog", "bird"] [] 2 ["cat"]).resultFile
      = SearchP.ranked fl log10 2 [("D1", "cat dog cat"), ("D2", "dog bird")]
        ["cat", "dog", "bird"] [] ["cat"] := by
    show emitFirst 2 _ = _
    rw [emitFirst_eq_take, hparlen]
    exact List.take_of_length_le (by rw [hparlen]; decide)
  have hmemPar : (0, (0, "")) ∈ SearchP.ranked fl log10 2
      [("D1", "cat dog cat"), ("D2", "dog bird")] ["cat", "dog", "bird"] [] ["cat"] := by
    unfold SearchP.ranked
    apply (stable_sort_perm less _).mem_iff.mpr
    rw [par_scores_eq _ _ (by decide)]
    apply List.mem_map.mpr
    refine ⟨1, by decide, ?_⟩
    unfold scoreSlot
    rw [hscore]
    simp
  have hseqsub : ∀ e ∈ (Search.main fl log10 [("D1", "cat dog cat"), ("D2", "dog bird")]
      ["cat", "dog", "bird"] [] 2 ["cat"]).resultFile,
      e ∈ positiveEntries fl log10 [("D1", "cat dog cat"), ("D2", "dog bird")]
        ["cat", "dog", "bird"] [] ["cat"] := by
    intro e he
    have he' : e ∈ emitFirst 2 (stable_sort less (Search.scores fl log10
        [("D1", "cat dog cat"), ("D2", "dog bird")] ["cat", "dog", "bird"] [] ["cat"])) := he
    rw [emitFirst_eq_take] at he'
    have hmem := (stable_sort_perm less _).mem_iff.mp (List.mem_of_mem_take he')
    rwa [seq_scores_eq] at hmem
  have hmemSeq : (0, (0, "")) ∉ (Search.main fl log10 [("D1", "cat dog cat"), ("D2", "dog bird")]
      ["cat", "dog", "bird"] [] 2 ["cat"]).resultFile := by
    intro hmem
    have hpos := (positiveEntries_bounds log10 _ _ _ _ _ (hseqsub _ hmem)).1
    exact lt_irrefl _ hpos
  have hseqlen : (Search.main fl log10 [("D1", "cat dog cat"), ("D2", "dog bird")]
      ["cat", "dog", "bird"] [] 2 ["cat"]).resultFile.length ≤ 1 := by
    show (emitFirst 2 (stable_sort less (Search.scores fl log10
        [("D1", "cat dog cat"), ("D2", "dog bird")] ["cat", "dog", "bird"] [] ["cat"]))).length ≤ 1
    rw [emitFirst_eq_take]
    refine le_trans (List.length_take_le _ _) ?_
    rw [(stable_sort_perm less _).length_eq, seq_scores_eq]
    unfold positiveEntries
    have hrange : List.range
        ([(("D1", "cat dog cat") : Document), ("D2", "dog bird")]).length = [0, 1] := by decide
    rw [hrange]
    simp only [List.filterMap_cons, List.filterMap_nil, hscore]
    split <;> simp
  refine ⟨by rw [hpar, hparlen]; rfl, by rw [hpar]; exact hmemPar, hseqlen, hmemSeq, ?_⟩
  intro heq
  rw [hpar] at heq
  exact hmemSeq (heq ▸ hmemPar)

/-! ## The sort does not depend on the sorting algorithm -/

/-- Two rearrangements of the same vector in which no later element is ordered
before an earlier one are the same list: the comparator being a strict total
order, every correct sort returns what `stable_sort` returns. -/
theorem sorted_perm_unique (l₁ l₂ : List ScoredResult) (hp : l₁.Perm l₂)
    (h₁ : l₁.Pairwise (fun x y => less y x = false))
    (h₂ : l₂.Pairwise (fun x y => less y x = false)) : l₁ = l₂ :=
  List.Perm.eq_of_sorted (fun _ _ _ _ hab hba => eq_of_not_less hba hab) h₁ h₂ hp

/-! ## Degenerate inputs -/

/-- With an empty vocabulary no word is ever flushed into the result. -/
theorem preProcess_fold_empty_dictionary (stopwords : List String) (cs : List Char)
    (w : String) :
    ((cs.foldl (preProcessStep [] stopwords) ("", w)).1 = "") := by
  induction cs generalizing w with
  | nil => rfl
  | cons c cs ih =>
    rw [List.foldl_cons]
    have hstep : ∃ w', preProcessStep [] stopwords ("", w) c = ("", w') := by
      unfold preProcessStep
      by_cases hc : isalpha c = true
      · exact ⟨w.push (tolower c), by simp [hc]⟩
      · by_cases hw : w = ""
        · exact ⟨w, by simp [hc, hw]⟩
        · exact ⟨"", by simp [hc, hw, flushWord]⟩
    obtain ⟨w', hw'⟩ := hstep
    rw [hw']
    exact ih w'

/-- The rescaling loop never divides by zero when the table is empty or the word
count is not zero; it then yields the rescaled table. -/
theorem rescaleChecked_eq {fl : ℚ → ℚ} (totalWords : Int) (tf : TermTable)
    (h : tf = [] ∨ totalWords ≠ 0) :
    rescaleChecked fl totalWords tf
      = some (tf.map (fun pair => (pair.1, fl (fl (pair.2 / (totalWords : ℚ)) * 100)))) := by
  induction tf with
  | nil => rfl
  | cons pair rest ih =>
    have hne : totalWords ≠ 0 := by
      rcases h with h | h
      · exact absurd h (List.cons_ne_nil _ _)
      · exact h
    unfold rescaleChecked
    rw [if_neg hne, ih (Or.inr hne)]
    rfl

/-- Claim C11. With an empty vocabulary every raw text, and with any vocabulary
and stopword set the empty raw text, is normalised to the empty string; on a text
with zero whitespace-separated tokens `calculateTF` returns the empty table, and
on every text it returns its table without dividing by a zero token count. -/
theorem degenerate_inputs (fl : ℚ → ℚ) :
    (∀ (text : String) (stopwords : List String), preProcessText text [] stopwords = "") ∧
    (∀ dictionary stopwords : List String, preProcessText "" dictionary stopwords = "") ∧
    (∀ text : String, extractWords text = [] →
      calculateTF fl text = [] ∧ calculateTFChecked fl text = some []) ∧
    (∀ text : String, calculateTFChecked fl text = some (calculateTF fl text)) := by
  refine ⟨fun text stopwords => ?_, fun _ _ => rfl, fun text h => ?_, fun text => ?_⟩
  · unfold preProcessText
    simp only [flushWord, List.not_mem_nil, false_and, if_false, ite_self]
    exact preProcess_fold_empty_dictionary stopwords text.toList ""
  · unfold calculateTFChecked calculateTF
    rw [h]
    exact ⟨rfl, rfl⟩
  · unfold calculateTFChecked calculateTF
    simp only [countWords_eq]
    apply rescaleChecked_eq
    cases hws : extractWords text with
    | nil => exact Or.inl rfl
    | cons w ws =>
      right
      simp only [List.length_cons]
      omega

/-! ## The inverse-document-frequency table -/

/-- The set of words of a document has no duplicates. -/
theorem foldl_setInsert_nodup (ws s : List String) (h : s.Nodup) :
    (ws.foldl setInsert s).Nodup := by
  induction ws generalizing s with
  | nil => exact h
  | cons w ws ih =>
    rw [List.foldl_cons]
    apply ih
    unfold setInsert
    split
    · exact h
    · rename_i hw
      exact List.Nodup.append h (List.nodup_singleton w) (by
        intro x hx hx'
        rw [List.mem_singleton] at hx'
        exact hw (hx' ▸ hx))

/-- The set of words of a document holds exactly the words inserted. -/
theorem mem_foldl_setInsert (ws s : List String) (k : String) :
    k ∈ ws.foldl setInsert s ↔ k ∈ s ∨ k ∈ ws := by
  induction ws generalizing s with
  | nil => simp
  | cons w ws ih =>
    rw [List.foldl_cons, ih]
    unfold setInsert
    split
    · rename_i hw
      constructor
      · rintro (h | h)
        · exact Or.inl h
        · exact Or.inr (List.mem_cons_of_mem _ h)
      · rintro (h | h)
        · exact Or.inl h
        · rcases List.mem_cons.mp h with rfl | h
          · exact Or.inl hw
          · exact Or.inr h
    · simp only [List.mem_append, List.mem_singleton, List.mem_cons]
      tauto

/-- Counting words leaves the value of every other word untouched. -/
theorem mapFind_foldl_mapIncr_of_not_mem {β : Type} [Zero β] [One β] [Add β]
    (ws : List String) (m : List (String × β)) (k : String) (hk : k ∉ ws) :
    mapFind (ws.foldl mapIncr m) k = mapFind m k := by
  induction ws generalizing m with
  | nil => rfl
  | cons w ws ih =>
    have hw : ¬ w = k := fun e => hk (e ▸ List.mem_cons_self _ _)
    rw [List.foldl_cons, ih _ (fun h => hk (List.mem_cons_of_mem _ h)), mapFind_mapIncr]
    simp [hw]

/-- The word set of a text, counted into a table: the value of a word of the text
goes up by one, every other value stays. -/
theorem mapFind_count_uniqueWords (text : String) (m : List (String × Int)) (k : String) :
    mapFind (((extractWords text).foldl setInsert []).foldl mapIncr m) k
      = if k ∈ extractWords text then some ((mapFind m k).getD 0 + 1) else mapFind m k := by
  have hnodup := foldl_setInsert_nodup (extractWords text) [] List.nodup_nil
  have hmem : k ∈ (extractWords text).foldl setInsert [] ↔ k ∈ extractWords text := by
    rw [mem_foldl_setInsert]
    simp
  by_cases hk : k ∈ extractWords text
  · rw [if_pos hk, mapFind_foldl_mapIncr _ _ _ (hmem.mpr hk),
      List.count_eq_one_of_mem hnodup (hmem.mpr hk)]
    simp
  · rw [if_neg hk]
    exact mapFind_foldl_mapIncr_of_not_mem _ _ _ (fun h => hk (hmem.mp h))

/-- The document frequency of a word over a corpus extended at the front. -/
theorem docFreq_cons (doc : Document) (documents : List Document) (w : String) :
    docFreq (doc :: documents) w
      = if w ∈ extractWords doc.2 then docFreq documents w + 1 else docFreq documents w := by
  unfold docFreq
  by_cases h : w ∈ extractWords doc.2
  · simp [List.filter_cons, h]
  · simp [List.filter_cons, h]

/-- The document-frequency loop started from a table `m`: a word in no document
keeps its value, a word in some document has its old value, a missing one
counting as zero, plus its document frequency. -/
theorem mapFind_df_loop (documents : List Document) (m : List (String × Int)) (w : String) :
    mapFind (documents.foldl (fun df doc =>
        ((extractWords doc.2).foldl setInsert []).foldl mapIncr df) m) w
      = if docFreq documents w = 0 then mapFind m w
        else some ((mapFind m w).getD 0 + (docFreq documents w : Int)) := by
  induction documents generalizing m with
  | nil => simp [docFreq]
  | cons doc documents ih =>
    rw [List.foldl_cons, ih, mapFind_count_uniqueWords, docFreq_cons]
    by_cases hw : w ∈ extractWords doc.2
    · simp only [hw, if_true, Nat.add_one_ne_zero, if_false, Option.getD_some]
      by_cases h0 : docFreq documents w = 0
      · simp [h0]
      · simp only [h0, if_false, Nat.cast_add, Nat.cast_one]
        congr 1
        omega
    · simp only [hw, if_false]

/-- The document-frequency table: the document frequency at every word that
occurs in some document, no entry elsewhere. -/
theorem mapFind_documentFrequency (documents : List Document) (w : String) :
    mapFind (documentFrequency documents) w
      = if docFreq documents w = 0 then none else some (docFreq documents w : Int) := by
  unfold documentFrequency
  rw [mapFind_df_loop]
  simp [mapFind]

/-- The keys of the document-frequency table are distinct. -/
theorem documentFrequency_nodup (documents : List Document) :
    ((documentFrequency documents).map Prod.fst).Nodup := by
  unfold documentFrequency
  have hgen : ∀ m : List (String × Int), (m.map Prod.fst).Nodup →
      ((documents.foldl (fun df doc =>
        ((extractWords doc.2).foldl setInsert []).foldl mapIncr df) m).map Prod.fst).Nodup := by
    induction documents with
    | nil => intro m h; exact h
    | cons doc documents ih =>
      intro m h
      rw [List.foldl_cons]
      exact ih _ (foldl_mapIncr_nodup _ _ h)
  exact hgen [] List.nodup_nil

/-- Assigning at a new key appends the entry. -/
theorem mapAssign_new {β : Type} (m : List (String × β)) (k : String) (v : β)
    (hk : k ∉ m.map Prod.fst) : mapAssign m k v = m ++ [(k, v)] := by
  induction m with
  | nil => rfl
  | cons p m ih =>
    obtain ⟨k', v'⟩ := p
    have hne : ¬ k' = k := fun e => hk (by simp [e])
    have hrest : k ∉ m.map Prod.fst := fun h => hk (by simp [h])
    unfold mapAssign
    rw [if_neg hne, ih hrest]
    rfl

/-- Assigning a value computed from each entry of a table with distinct keys, into
a table that has none of these keys, appends the recomputed entries in order. -/
theorem foldl_mapAssign_distinct {β γ : Type} (g : β → γ) (l : List (String × β))
    (init : List (String × γ)) (hnodup : (l.map Prod.fst).Nodup)
    (hnew : ∀ k ∈ l.map Prod.fst, k ∉ init.map Prod.fst) :
    l.foldl (fun idf pair => mapAssign idf pair.1 (g pair.2)) init
      = init ++ l.map (fun pair => (pair.1, g pair.2)) := by
  induction l generalizing init with
  | nil => simp
  | cons p l ih =>
    rw [List.map_cons, List.nodup_cons] at hnodup
    rw [List.foldl_cons, mapAssign_new _ _ _ (hnew p.1 (by simp)), ih _ hnodup.2]
    · simp
    · intro k hk hmem
      rw [List.map_append, List.mem_append] at hmem
      rcases hmem with hmem | hmem
      · exact hnew k (by simp only [List.map_cons, List.mem_cons]; exact Or.inr hk) hmem
      · simp only [List.map_cons, List.map_nil, List.mem_singleton] at hmem
        exact hnodup.1 (hmem ▸ hk)

/-- The table of `calculateIDF`: the document-frequency table with every count
`df` replaced by `log10 (totalDocuments / df)`. -/
theorem calculateIDF_eq (log10 : ℚ → ℚ) (documents : List Document) :
    calculateIDF log10 documents
      = (documentFrequency documents).map
          (fun pair => (pair.1, log10 ((documents.length : ℚ) / (pair.2 : ℚ)))) := by
  unfold calculateIDF
  have h := foldl_mapAssign_distinct
    (fun df : Int => log10 (((documents.length : Int) : ℚ) / (df : ℚ)))
    (documentFrequency documents) [] (documentFrequency_nodup documents)
    (fun _ _ h => absurd h (List.not_mem_nil _))
  simp only [List.nil_append, Int.cast_natCast] at h ⊢
  exact h

/-- The value of the IDF table at a word: `log10 (D / df)` when the word occurs in
some document, no entry otherwise. -/
theorem mapFind_calculateIDF (log10 : ℚ → ℚ) (documents : List Document) (w : String) :
    mapFind (calculateIDF log10 documents) w
      = if docFreq documents w = 0 then none
        else some (log10 ((documents.length : ℚ) / (docFreq documents w : ℚ))) := by
  rw [calculateIDF_eq,
    mapFind_map (fun df : Int => log10 ((documents.length : ℚ) / (df : ℚ))),
    mapFind_documentFrequency]
  split
  · rfl
  · simp

/-- A word has a positive document frequency exactly when it occurs in some
document. -/
theorem docFreq_pos_iff (documents : List Document) (w : String) :
    1 ≤ docFreq documents w ↔ ∃ doc ∈ documents, w ∈ extractWords doc.2 := by
  unfold docFreq
  rw [Nat.one_le_iff_ne_zero, Ne, List.length_eq_zero, List.filter_eq_nil_iff]
  simp

/-- The document frequency never exceeds the number of documents. -/
theorem docFreq_le_length (documents : List Document) (w : String) :
    docFreq documents w ≤ documents.length :=
  List.length_filter_le _ _

/-- Claim C12. The table returned by `calculateIDF` on `D` documents has as keys,
each once, exactly the tokens that occur in at least one document; its value at
such a token `w` is `log10 (D / df(w))`, with `df(w)` the number of documents
whose token list contains `w` and `D` the number of all documents passed in; a
token with `df = 0` has no entry. -/
theorem calculateIDF_spec (log10 : ℚ → ℚ) (documents : List Document) :
    ((calculateIDF log10 documents).map Prod.fst).Nodup ∧
    (∀ w, w ∈ (calculateIDF log10 documents).map Prod.fst
      ↔ ∃ doc ∈ documents, w ∈ extractWords doc.2) ∧
    (∀ w, 1 ≤ docFreq documents w →
      mapFind (calculateIDF log10 documents) w
        = some (log10 ((documents.length : ℚ) / (docFreq documents w : ℚ)))) ∧
    (∀ w, docFreq documents w = 0 → mapFind (calculateIDF log10 documents) w = none) := by
  refine ⟨?_, fun w => ?_, fun w hw => ?_, fun w hw => ?_⟩
  · rw [calculateIDF_eq, List.map_map]
    exact documentFrequency_nodup documents
  · rw [← mapFind_isSome_iff, mapFind_calculateIDF, ← docFreq_pos_iff]
    split
    · rename_i h0
      simp [h0]
    · rename_i h0
      simp only [Option.isSome_some, true_iff]
      omega
  · rw [mapFind_calculateIDF, if_neg (by omega)]
  · rw [mapFind_calculateIDF, if_pos hw]

/-! ## The relevance score -/

/-- No value of a TF table is negative when the rounding keeps the sign. -/
theorem calculateTF_nonneg {fl : ℚ → ℚ} (hfl : ∀ x, 0 ≤ x → 0 ≤ fl x)
    (text : String) (w : String) (v : ℚ)
    (h : mapFind (calculateTF fl text) w = some v) : 0 ≤ v := by
  by_cases hw : w ∈ extractWords text
  · rw [mapFind_calculateTF_mem text w hw] at h
    rw [← Option.some.inj h]
    exact hfl _ (mul_nonneg (hfl _ (by positivity)) (by norm_num))
  · rw [mapFind_calculateTF_none text w hw] at h
    exact absurd h (by simp)

/-- For a logarithm that is not negative from 1 on, no value of an IDF table is
negative. -/
theorem calculateIDF_nonneg (log10 : ℚ → ℚ) (hlog : ∀ x, 1 ≤ x → 0 ≤ log10 x)
    (documents : List Document) (w : String) (v : ℚ)
    (h : mapFind (calculateIDF log10 documents) w = some v) :
    1 ≤ docFreq documents w ∧ docFreq documents w ≤ documents.length ∧ 0 ≤ v := by
  rw [mapFind_calculateIDF] at h
  split at h
  · exact absurd h (by simp)
  · rename_i h0
    have hpos : 1 ≤ docFreq documents w := Nat.one_le_iff_ne_zero.mpr h0
    have hle := docFreq_le_length documents w
    refine ⟨hpos, hle, ?_⟩
    rw [← Option.some.inj h]
    apply hlog
    have hdf : (0 : ℚ) < (docFreq documents w : ℚ) := by exact_mod_cast hpos
    rw [le_div_iff₀ hdf, one_mul]
    exact_mod_cast hle

/-- A score is not negative when the rounding keeps the sign and no table value is
negative. -/
theorem calculateTFIDFScore_nonneg {fl : ℚ → ℚ} (hfl : ∀ x, 0 ≤ x → 0 ≤ fl x)
    (tf idf : TermTable) (keywords : List String)
    (htf : ∀ w v, mapFind tf w = some v → 0 ≤ v)
    (hidf : ∀ w v, mapFind idf w = some v → 0 ≤ v) :
    0 ≤ calculateTFIDFScore fl tf idf keywords := by
  unfold calculateTFIDFScore
  have hgen : ∀ init : ℚ, 0 ≤ init →
      0 ≤ keywords.foldl (fun score keyword =>
        match mapFind tf keyword, mapFind idf keyword with
        | some t, some i => fl (score + fl (t * i))
        | _, _ => score) init := by
    induction keywords with
    | nil => intro init h; exact h
    | cons k ks ih =>
      intro init h
      rw [List.foldl_cons]
      apply ih
      cases ht : mapFind tf k with
      | none => exact h
      | some t =>
        cases hi : mapFind idf k with
        | none => exact h
        | some i => exact hfl _ (add_nonneg h (hfl _ (mul_nonneg (htf k t ht) (hidf k i hi))))
  exact hgen 0 le_rfl

/-- Claim C14. For a rounding that keeps the sign, as the rounding to double and
exact arithmetic do, and a logarithm that is not negative from 1 on, every count
`df` in the document-frequency table has `1 ≤ df ≤ totalDocuments`, every token
`w` of the table returned by `calculateIDF` has `1 ≤ df(w) ≤ totalDocuments` and a
value `idf(w) ≥ 0`, and every document of the corpus scores `≥ 0` against every
keyword list. -/
theorem score_nonneg (fl log10 : ℚ → ℚ) (hfl : ∀ x, 0 ≤ x → 0 ≤ fl x)
    (hlog : ∀ x, 1 ≤ x → 0 ≤ log10 x) (documents : List Document) :
    (∀ w df, mapFind (documentFrequency documents) w = some df →
      1 ≤ df ∧ df ≤ (documents.length : Int)) ∧
    (∀ w v, mapFind (calculateIDF log10 documents) w = some v →
      1 ≤ docFreq documents w ∧ docFreq documents w ≤ documents.length ∧ 0 ≤ v) ∧
    (∀ doc ∈ documents, ∀ keywords : List String,
      0 ≤ calculateTFIDFScore fl (calculateTF fl doc.2) (calculateIDF log10 documents) keywords) := by
  refine ⟨fun w df h => ?_, fun w v h => calculateIDF_nonneg log10 hlog documents w v h,
    fun doc _ keywords => ?_⟩
  · rw [mapFind_documentFrequency] at h
    split at h
    · exact absurd h (by simp)
    · rename_i h0
      have hle := docFreq_le_length documents w
      rw [← Option.some.inj h]
      constructor
      · have : 1 ≤ docFreq documents w := Nat.one_le_iff_ne_zero.mpr h0
        exact_mod_cast this
      · exact_mod_cast hle
  exact calculateTFIDFScore_nonneg hfl _ _ keywords
    (fun w v h => calculateTF_nonneg hfl doc.2 w v h)
    (fun w v h => (calculateIDF_nonneg log10 hlog documents w v h).2.2)

/-- The stand-in logarithm is not negative from 1 on. -/
theorem log10Chord_nonneg (x : ℚ) (hx : 1 ≤ x) : 0 ≤ log10Chord x := by
  unfold log10Chord
  apply div_nonneg
  · linarith
  · norm_num

/-- Claim C14, witness: the rounding to double and the stand-in logarithm on the
corpus "cat dog cat ", "dog bird ". -/
theorem score_nonneg_witness :
    (∀ x : ℚ, 0 ≤ x → 0 ≤ roundDouble x) ∧
    (∀ x : ℚ, 1 ≤ x → 0 ≤ log10Chord x) ∧
    (∀ w df, mapFind (documentFrequency [("D1", "cat dog cat "), ("D2", "dog bird ")]) w
        = some df →
      1 ≤ df ∧ df ≤ ([(("D1", "cat dog cat ") : Document), ("D2", "dog bird ")].length : Int)) ∧
    (∀ w v, mapFind (calculateIDF log10Chord [("D1", "cat dog cat "), ("D2", "dog bird ")]) w
        = some v →
      1 ≤ docFreq [("D1", "cat dog cat "), ("D2", "dog bird ")] w ∧
      docFreq [("D1", "cat dog cat "), ("D2", "dog bird ")] w
        ≤ [(("D1", "cat dog cat ") : Document), ("D2", "dog bird ")].length ∧ 0 ≤ v) ∧
    (∀ doc ∈ [(("D1", "cat dog cat ") : Document), ("D2", "dog bird ")],
      ∀ keywords : List String,
      0 ≤ calculateTFIDFScore roundDouble (calculateTF roundDouble doc.2)
        (calculateIDF log10Chord [("D1", "cat dog cat "), ("D2", "dog bird ")]) keywords) :=
  ⟨roundDouble_nonneg, log10Chord_nonneg,
    score_nonneg roundDouble log10Chord roundDouble_nonneg log10Chord_nonneg
      [("D1", "cat dog cat "), ("D2", "dog bird ")]⟩

/-- For a rounding that keeps the order, fixes zero and leaves its own results
alone, and an IDF table whose value at `k` is not negative: when two TF tables
agree on every token other than `k` and the second has the larger value at `k`, an
absent entry counting as zero, the second scores at least as much. -/
theorem calculateTFIDFScore_mono {fl : ℚ → ℚ} (hmono : ∀ x y, x ≤ y → fl x ≤ fl y)
    (hidem : ∀ x, fl (fl x) = fl x) (hzero : fl 0 = 0)
    (idf : TermTable) (keywords : List String) (k : String) (tf tf' : TermTable)
    (hidf : ∀ v, mapFind idf k = some v → 0 ≤ v)
    (hagree : ∀ w, w ≠ k → mapFind tf w = mapFind tf' w)
    (hle : tfValue tf k ≤ tfValue tf' k) :
    calculateTFIDFScore fl tf idf keywords ≤ calculateTFIDFScore fl tf' idf keywords := by
  unfold calculateTFIDFScore
  have hgen : ∀ s s' : ℚ, s ≤ s' → fl s = s → fl s' = s' →
      keywords.foldl (fun score keyword =>
        match mapFind tf keyword, mapFind idf keyword with
        | some t, some i => fl (score + fl (t * i))
        | _, _ => score) s
      ≤ keywords.foldl (fun score keyword =>
        match mapFind tf' keyword, mapFind idf keyword with
        | some t, some i => fl (score + fl (t * i))
        | _, _ => score) s' := by
    induction keywords with
    | nil => intro s s' h _ _; exact h
    | cons w ws ih =>
      intro s s' h hs hs'
      rw [List.foldl_cons, List.foldl_cons]
      by_cases hw : w = k
      · subst hw
        cases hi : mapFind idf w with
        | none =>
          cases ht : mapFind tf w <;> cases ht' : mapFind tf' w <;> exact ih s s' h hs hs'
        | some i =>
          have hi0 : 0 ≤ i := hidf i hi
          cases ht : mapFind tf w with
          | none =>
            cases ht' : mapFind tf' w with
            | none => exact ih s s' h hs hs'
            | some t' =>
              have ht0 : 0 ≤ t' := by simpa [tfValue, ht, ht'] using hle
              have hp : 0 ≤ fl (t' * i) := by
                have := hmono 0 (t' * i) (mul_nonneg ht0 hi0)
                rwa [hzero] at this
              refine ih s (fl (s' + fl (t' * i))) ?_ hs (hidem _)
              calc s ≤ s' := h
                _ = fl s' := hs'.symm
                _ ≤ fl (s' + fl (t' * i)) := hmono _ _ (by linarith)
          | some t =>
            cases ht' : mapFind tf' w with
            | none =>
              have ht0 : t ≤ 0 := by simpa [tfValue, ht, ht'] using hle
              have hp : fl (t * i) ≤ 0 := by
                have := hmono (t * i) 0 (mul_nonpos_of_nonpos_of_nonneg ht0 hi0)
                rwa [hzero] at this
              refine ih (fl (s + fl (t * i))) s' ?_ (hidem _) hs'
              calc fl (s + fl (t * i)) ≤ fl s' := hmono _ _ (by linarith)
                _ = s' := hs'
            | some t' =>
              have htt : t ≤ t' := by simpa [tfValue, ht, ht'] using hle
              refine ih (fl (s + fl (t * i))) (fl (s' + fl (t' * i))) ?_ (hidem _) (hidem _)
              exact hmono _ _ (add_le_add h (hmono _ _ (mul_le_mul_of_nonneg_right htt hi0)))
      · rw [← hagree w hw]
        cases ht : mapFind tf w with
        | none => exact ih s s' h hs hs'
        | some t =>
          cases hi : mapFind idf w with
          | none => exact ih s s' h hs hs'
          | some i =>
            exact ih (fl (s + fl (t * i))) (fl (s' + fl (t * i)))
              (hmono _ _ (by linarith)) (hidem _) (hidem _)
  exact hgen 0 0 le_rfl hzero hzero

/-- Claim C15. For a rounding that keeps the order, fixes zero and leaves its own
results alone, as the rounding to double and exact arithmetic do, a logarithm that
is not negative from 1 on and the IDF table of a corpus: when two TF tables agree
on every token other than `k` and the second has the larger value at `k`, an
absent entry counting as zero, the second scores at least as much against every
keyword list. -/
theorem score_monotone_in_tf (fl log10 : ℚ → ℚ) (hmono : ∀ x y, x ≤ y → fl x ≤ fl y)
    (hidem : ∀ x, fl (fl x) = fl x) (hzero : fl 0 = 0)
    (hlog : ∀ x, 1 ≤ x → 0 ≤ log10 x)
    (documents : List Document) (keywords : List String) (k : String) (tf tf' : TermTable)
    (hagree : ∀ w, w ≠ k → mapFind tf w = mapFind tf' w)
    (hle : tfValue tf k ≤ tfValue tf' k) :
    calculateTFIDFScore fl tf (calculateIDF log10 documents) keywords
      ≤ calculateTFIDFScore fl tf' (calculateIDF log10 documents) keywords :=
  calculateTFIDFScore_mono hmono hidem hzero (calculateIDF log10 documents) keywords k tf tf'
    (fun v hv => (calculateIDF_nonneg log10 hlog documents k v hv).2.2) hagree hle

/-- Claim C15, witness: the rounding to double, the stand-in logarithm, the corpus
"cat dog cat ", "dog bird ", the query "cat", "dog", and the TF value of "cat"
raised from 50 to 75. -/
theorem score_monotone_in_tf_witness :
    (∀ x y : ℚ, x ≤ y → roundDouble x ≤ roundDouble y) ∧
    (∀ x : ℚ, roundDouble (roundDouble x) = roundDouble x) ∧
    roundDouble 0 = 0 ∧
    (∀ x : ℚ, 1 ≤ x → 0 ≤ log10Chord x) ∧
    (∀ w, w ≠ "cat" →
      mapFind ([("cat", 50), ("dog", 50)] : TermTable) w
        = mapFind ([("cat", 75), ("dog", 50)] : TermTable) w) ∧
    tfValue [("cat", 50), ("dog", 50)] "cat" ≤ tfValue [("cat", 75), ("dog", 50)] "cat" ∧
    calculateTFIDFScore roundDouble [("cat", 50), ("dog", 50)]
        (calculateIDF log10Chord [("D1", "cat dog cat "), ("D2", "dog bird ")]) ["cat", "dog"]
      ≤ calculateTFIDFScore roundDouble [("cat", 75), ("dog", 50)]
        (calculateIDF log10Chord [("D1", "cat dog cat "), ("D2", "dog bird ")]) ["cat", "dog"] :=
  have hagree : ∀ w, w ≠ "cat" →
      mapFind ([("cat", 50), ("dog", 50)] : TermTable) w
        = mapFind ([("cat", 75), ("dog", 50)] : TermTable) w := by
    intro w hw
    have hw' : ¬ "cat" = w := fun e => hw e.symm
    simp [mapFind, hw']
  have hle : tfValue [("cat", 50), ("dog", 50)] "cat"
      ≤ tfValue [("cat", 75), ("dog", 50)] "cat" := by decide!
  ⟨roundDouble_mono, roundDouble_idem, roundDouble_zero, log10Chord_nonneg, hagree, hle,
    score_monotone_in_tf roundDouble log10Chord roundDouble_mono roundDouble_idem
      roundDouble_zero log10Chord_nonneg
      [("D1", "cat dog cat "), ("D2", "dog bird ")] ["cat", "dog"] "cat"
      [("cat", 50), ("dog", 50)] [("cat", 75), ("dog", 50)] hagree hle⟩

/-! ## Tables stay within the vocabulary -/

/-- The keys of an IDF table are the tokens that occur in some document. -/
theorem mem_keys_calculateIDF (log10 : ℚ → ℚ) (documents : List Document) (w : String) :
    w ∈ (calculateIDF log10 documents).map Prod.fst
      ↔ ∃ doc ∈ documents, w ∈ extractWords doc.2 := by
  rw [← mapFind_isSome_iff, mapFind_calculateIDF, ← docFreq_pos_iff]
  split
  · rename_i h0
    simp [h0]
  · simp only [Option.isSome_some, true_iff]
    omega

/-- A token of a normalised text is in the vocabulary and is not a stopword. -/
theorem extractWords_preProcessText_filtered (text : String) (dictionary stopwords : List String)
    (w : String) (hw : w ∈ extractWords (preProcessText text dictionary stopwords)) :
    w ∈ dictionary ∧ w ∉ stopwords := by
  rw [extractWords_preProcessText] at hw
  unfold survivingTokens at hw
  have hs := (List.mem_filter.mp hw).2
  simpa [survives] using hs

/-- Claim C16. For every corpus of raw documents, vocabulary and stopword set,
every key of every TF table `calculateTF(preProcessText(doc))` and every key of
the IDF table of the preprocessed corpus is in the vocabulary and not in the
stopword set. -/
theorem tables_within_vocabulary (fl log10 : ℚ → ℚ) (documents : List Document)
    (dictionary stopwords : List String) :
    (∀ doc ∈ documents,
      ∀ w ∈ (calculateTF fl (preProcessText doc.2 dictionary stopwords)).map Prod.fst,
        w ∈ dictionary ∧ w ∉ stopwords) ∧
    (∀ tf ∈ Search.tfDocs fl (Search.preprocessedDocuments documents dictionary stopwords),
      ∀ w ∈ tf.map Prod.fst, w ∈ dictionary ∧ w ∉ stopwords) ∧
    (∀ w ∈ (calculateIDF log10
        (Search.preprocessedDocuments documents dictionary stopwords)).map Prod.fst,
      w ∈ dictionary ∧ w ∉ stopwords) := by
  have htf : ∀ doc ∈ documents,
      ∀ w ∈ (calculateTF fl (preProcessText doc.2 dictionary stopwords)).map Prod.fst,
        w ∈ dictionary ∧ w ∉ stopwords := by
    intro doc _ w hw
    exact extractWords_preProcessText_filtered doc.2 dictionary stopwords w
      ((mem_keys_calculateTF _ w).mp hw)
  refine ⟨htf, ?_, ?_⟩
  · intro tf htfmem w hw
    rw [seq_preprocessedDocuments_eq, seq_tfDocs_eq] at htfmem
    unfold normalizedCorpus at htfmem
    rw [List.map_map] at htfmem
    obtain ⟨doc, hdoc, rfl⟩ := List.mem_map.mp htfmem
    exact htf doc hdoc w hw
  · intro w hw
    rw [seq_preprocessedDocuments_eq, mem_keys_calculateIDF] at hw
    obtain ⟨pre, hpre, hwpre⟩ := hw
    unfold normalizedCorpus at hpre
    obtain ⟨doc, -, rfl⟩ := List.mem_map.mp hpre
    exact extractWords_preProcessText_filtered doc.2 dictionary stopwords w hwpre

/-! ## Batch boundaries -/

/-- Claim C17. For a document count `D` and a worker count `W ≥ 1`, the index
ranges `[start_i, end_i)` with `start_i = i * (D / W)`, `end_i = (i + 1) * (D / W)`
for `i < W - 1` and `end_{W-1} = D` start at 0, are contiguous, end at `D`, are
pairwise disjoint and cover `[0, D)`: every index below `D` lies in exactly one
range, and the last range takes the remainder. -/
theorem batches_partition (size numThreads : Nat) (hW : 1 ≤ numThreads) :
    SearchP.batchStart (size / numThreads) 0 = 0 ∧
    (∀ i, i + 1 < numThreads →
      SearchP.batchEnd numThreads (size / numThreads) size i
        = SearchP.batchStart (size / numThreads) (i + 1)) ∧
    SearchP.batchEnd numThreads (size / numThreads) size (numThreads - 1) = size ∧
    (∀ i, i < numThreads →
      SearchP.batchStart (size / numThreads) i
        ≤ SearchP.batchEnd numThreads (size / numThreads) size i ∧
      SearchP.batchEnd numThreads (size / numThreads) size i ≤ size) ∧
    (∀ i j, i < numThreads → j < numThreads → i ≠ j → ∀ x,
      ¬ ((SearchP.batchStart (size / numThreads) i ≤ x ∧
          x < SearchP.batchEnd numThreads (size / numThreads) size i) ∧
        (SearchP.batchStart (size / numThreads) j ≤ x ∧
          x < SearchP.batchEnd numThreads (size / numThreads) size j))) ∧
    (∀ x, x < size → ∃! i, i < numThreads ∧
      SearchP.batchStart (size / numThreads) i ≤ x ∧
      x < SearchP.batchEnd numThreads (size / numThreads) size i) ∧
    SearchP.batchEnd numThreads (size / numThreads) size (numThreads - 1)
        - SearchP.batchStart (size / numThreads) (numThreads - 1)
      = size / numThreads + size % numThreads := by
  obtain ⟨w, rfl⟩ : ∃ w, numThreads = w + 1 := ⟨numThreads - 1, by omega⟩
  generalize hb : size / (w + 1) = b
  have hfull : (w + 1) * b ≤ size := by
    rw [← hb]
    exact Nat.mul_div_le size (w + 1)
  have hmod : size = (w + 1) * b + size % (w + 1) := by
    rw [← hb]
    exact (Nat.div_add_mod size (w + 1)).symm
  have hmono : ∀ i j, i ≤ j → i * b ≤ j * b := fun i j h => Nat.mul_le_mul_right b h
  have hwb : w * b + b = (w + 1) * b := by rw [Nat.add_mul, Nat.one_mul]
  -- the range of worker `i`, unfolded
  have hrange : ∀ i x, i < w + 1 →
      ((SearchP.batchStart b i ≤ x ∧ x < SearchP.batchEnd (w + 1) b size i)
        ↔ (i * b ≤ x ∧ ((i = w ∧ x < size) ∨ (i < w ∧ x < (i + 1) * b)))) := by
    intro i x hi
    unfold SearchP.batchStart SearchP.batchEnd
    by_cases hiw : i = w
    · simp [hiw]
    · have hlt : i < w := by omega
      simp [hiw, hlt]
  -- two workers that share an index are the same worker
  have hsame : ∀ i j x, i < w + 1 → j < w + 1 →
      (SearchP.batchStart b i ≤ x ∧ x < SearchP.batchEnd (w + 1) b size i) →
      (SearchP.batchStart b j ≤ x ∧ x < SearchP.batchEnd (w + 1) b size j) → i = j := by
    intro i j x hi hj h1 h2
    rw [hrange i x hi] at h1
    rw [hrange j x hj] at h2
    by_contra hne
    rcases Nat.lt_or_gt_of_ne hne with hlt | hlt
    · have hiw : i < w := by omega
      rcases h1.2 with ⟨he, -⟩ | ⟨-, hx⟩
      · omega
      · have := hmono (i + 1) j hlt
        omega
    · have hjw : j < w := by omega
      rcases h2.2 with ⟨he, -⟩ | ⟨-, hx⟩
      · omega
      · have := hmono (j + 1) i hlt
        omega
  refine ⟨by simp [SearchP.batchStart], ?_, by simp [SearchP.batchEnd], ?_, ?_, ?_, ?_⟩
  · intro i hi
    have hiw : i ≠ w := by omega
    simp [SearchP.batchEnd, SearchP.batchStart, hiw]
  · intro i hi
    unfold SearchP.batchStart SearchP.batchEnd
    by_cases hiw : i = w
    · subst hiw
      simp only [Nat.add_sub_cancel, if_true, le_refl, and_true]
      omega
    · have h1 := hmono i (i + 1) (Nat.le_succ i)
      have h2 := hmono (i + 1) (w + 1) (by omega)
      simp only [Nat.add_sub_cancel, hiw, if_false]
      omega
  · intro i j hi hj hne x hx
    exact hne (hsame i j x hi hj hx.1 hx.2)
  · intro x hx
    by_cases hlast : w * b ≤ x
    · refine ⟨w, ⟨by omega, (hrange w x (by omega)).mpr ⟨hlast, Or.inl ⟨rfl, hx⟩⟩⟩, ?_⟩
      rintro j ⟨hj, hjx⟩
      exact hsame j w x hj (by omega) hjx ((hrange w x (by omega)).mpr ⟨hlast, Or.inl ⟨rfl, hx⟩⟩)
    · have hxlt : x < w * b := by omega
      have hbpos : 0 < b := by
        rcases Nat.eq_zero_or_pos b with h0 | h0
        · rw [h0] at hxlt
          simp at hxlt
        · exact h0
      have hq : x / b < w := (Nat.div_lt_iff_lt_mul hbpos).mpr hxlt
      have hlo : x / b * b ≤ x := Nat.div_mul_le_self x b
      have hhi : x < (x / b + 1) * b := by
        have := Nat.lt_succ_self (x / b)
        exact (Nat.div_lt_iff_lt_mul hbpos).mp this
      have hin := (hrange (x / b) x (by omega)).mpr ⟨hlo, Or.inr ⟨hq, hhi⟩⟩
      refine ⟨x / b, ⟨by omega, hin⟩, ?_⟩
      rintro j ⟨hj, hjx⟩
      exact hsame j (x / b) x hj (by omega) hjx hin
  · simp only [SearchP.batchEnd, SearchP.batchStart, Nat.add_sub_cancel, if_true]
    omega

/-- Claim C17, witness: five documents on two workers; the last batch holds
`5 / 2 + 5 % 2 = 3` documents. -/
theorem batches_partition_witness :
    1 ≤ 2 ∧
    SearchP.batchEnd 2 (5 / 2) 5 (2 - 1) - SearchP.batchStart (5 / 2) (2 - 1) = 5 / 2 + 5 % 2 :=
  ⟨by decide, (batches_partition 5 2 (by decide)).2.2.2.2.2.2⟩

/-! ## The end-to-end example -/

/-- The stand-in logarithm is positive at 2. -/
theorem log10Chord_two_pos : 0 < log10Chord 2 := by
  unfold log10Chord
  norm_num

/-- A vector that holds a value in the slots that pass a test and a default in the
others is a rearrangement of the values followed by the defaults. -/
theorem slots_perm {α : Type} (c : Nat → Prop) [DecidablePred c] (g : Nat → α) (d : α)
    (l : List Nat) :
    (l.map (fun i => if c i then g i else d)).Perm
      (l.filterMap (fun i => if c i then some (g i) else none)
        ++ List.replicate (l.length - (l.filter (fun i => decide (c i))).length) d) := by
  induction l with
  | nil => simp
  | cons i l ih =>
    have hle : (l.filter (fun i => decide (c i))).length ≤ l.length := List.length_filter_le _ _
    by_cases hc : c i
    · have hfilter : (i :: l).filter (fun i => decide (c i))
          = i :: l.filter (fun i => decide (c i)) := by simp [List.filter_cons, hc]
      rw [hfilter]
      simp only [List.map_cons, List.filterMap_cons, hc, if_true, List.length_cons,
        List.cons_append, Nat.add_sub_add_right]
      exact List.Perm.cons _ ih
    · have hfilter : (i :: l).filter (fun i => decide (c i))
          = l.filter (fun i => decide (c i)) := by simp [List.filter_cons, hc]
      have hlen : l.length + 1 - (l.filter (fun i => decide (c i))).length
          = (l.length - (l.filter (fun i => decide (c i))).length) + 1 := by omega
      rw [hfilter]
      simp only [List.map_cons, List.filterMap_cons, hc, if_false, List.length_cons, hlen,
        List.replicate_succ]
      exact (List.Perm.cons d ih).trans List.perm_middle.symm

/-- The number of values kept by a conditional `filterMap` is the number of
elements that pass the test. -/
theorem length_filterMap_ite {α : Type} (c : Nat → Prop) [DecidablePred c] (g : Nat → α)
    (l : List Nat) :
    (l.filterMap (fun i => if c i then some (g i) else none)).length
      = (l.filter (fun i => decide (c i))).length := by
  induction l with
  | nil => rfl
  | cons i l ih =>
    by_cases hc : c i
    · simp [List.filterMap_cons, List.filter_cons, hc, ih]
    · simp [List.filterMap_cons, List.filter_cons, hc, ih]

/-- The sequential ranked list has one entry per positive-score document. -/
theorem seq_ranked_length {fl : ℚ → ℚ} (log10 : ℚ → ℚ) (documents : List Document)
    (dictionary stopwords : List String) (keywords : List String) :
    (Search.ranked fl log10 documents dictionary stopwords keywords).length
      = positiveCount fl log10 documents dictionary stopwords keywords := by
  unfold Search.ranked positiveCount
  rw [(stable_sort_perm less _).length_eq, seq_scores_eq]
  unfold positiveEntries
  exact length_filterMap_ite
    (fun i => docScore fl log10 documents dictionary stopwords keywords i > 0)
    (scoredEntry fl log10 documents dictionary stopwords keywords) _

/-- The value-initialised entry is never ordered before an entry with a positive
score, nor before itself. -/
theorem default_not_less (a : ScoredResult) (ha : 0 < a.1 ∨ a = (0, (0, ""))) :
    less (0, (0, "")) a = false := by
  rcases ha with ha | ha
  · rw [Bool.eq_false_iff, Ne, less_iff]
    simp only [not_or, not_lt, not_and]
    refine ⟨le_of_lt ha, fun h => ?_⟩
    exact absurd h (ne_of_lt ha)
  · rw [ha]
    exact less_irrefl _

/-- For a worker count of at least one, the sorted `scores` vector of the batched
pipeline is the sequential ranked list followed by one value-initialised entry
per document without a positive score. -/
theorem par_ranked_eq {fl : ℚ → ℚ} (log10 : ℚ → ℚ) (numThreads : Nat) (hW : 1 ≤ numThreads)
    (documents : List Document) (dictionary stopwords : List String) (keywords : List String) :
    SearchP.ranked fl log10 numThreads documents dictionary stopwords keywords
      = Search.ranked fl log10 documents dictionary stopwords keywords
        ++ List.replicate
          (documents.length - positiveCount fl log10 documents dictionary stopwords keywords)
          (0, (0, "")) := by
  apply sorted_perm_unique
  · unfold SearchP.ranked
    refine (stable_sort_perm less _).trans ?_
    rw [par_scores_eq _ _ hW]
    have hperm := slots_perm
      (fun i => docScore fl log10 documents dictionary stopwords keywords i > 0)
      (scoredEntry fl log10 documents dictionary stopwords keywords) (0, (0, ""))
      (List.range documents.length)
    have hseq : (Search.ranked fl log10 documents dictionary stopwords keywords).Perm
        (positiveEntries fl log10 documents dictionary stopwords keywords) :=
      (stable_sort_perm less _).trans (List.Perm.of_eq (seq_scores_eq _ _ _ _ _))
    have hslot : scoreSlot fl log10 documents dictionary stopwords keywords
        = fun i => if docScore fl log10 documents dictionary stopwords keywords i > 0 then
            scoredEntry fl log10 documents dictionary stopwords keywords i else (0, (0, "")) := by
      funext i
      rfl
    rw [hslot]
    simp only [List.length_range] at hperm
    exact hperm.trans (List.Perm.append_right _ hseq.symm)
  · exact stable_sort_sorted _
  · rw [List.pairwise_append]
    refine ⟨stable_sort_sorted _, ?_, ?_⟩
    · rw [List.pairwise_replicate]
      exact Or.inr (less_irrefl _)
    · intro a ha b hb
      rw [List.eq_of_mem_replicate hb]
      apply default_not_less
      left
      have hmem := (stable_sort_perm less _).mem_iff.mp ha
      rw [seq_scores_eq] at hmem
      exact (positiveEntries_bounds _ _ _ _ _ _ hmem).1

/-- Claim C19. For a worker count `W ≥ 1` and `k` the number of documents with a
score `> 0`, the first `k` entries of the sorted `scores` vector of the batched
pipeline are the full ranked list of the sequential pipeline, and the remaining
`D - k` entries are all the value-initialised entry `(0, (0, ""))`. -/
theorem par_ranked_take_drop (fl log10 : ℚ → ℚ) (numThreads : Nat) (hW : 1 ≤ numThreads)
    (documents : List Document) (dictionary stopwords : List String) (keywords : List String) :
    (SearchP.ranked fl log10 numThreads documents dictionary stopwords keywords).length
      = documents.length ∧
    (SearchP.ranked fl log10 numThreads documents dictionary stopwords keywords).take
        (positiveCount fl log10 documents dictionary stopwords keywords)
      = Search.ranked fl log10 documents dictionary stopwords keywords ∧
    (SearchP.ranked fl log10 numThreads documents dictionary stopwords keywords).drop
        (positiveCount fl log10 documents dictionary stopwords keywords)
      = List.replicate
          (documents.length - positiveCount fl log10 documents dictionary stopwords keywords)
          (0, (0, "")) := by
  refine ⟨par_ranked_length log10 numThreads hW documents dictionary stopwords keywords, ?_, ?_⟩
  · rw [par_ranked_eq _ _ hW]
    exact List.take_left' (seq_ranked_length _ _ _ _ _)
  · rw [par_ranked_eq _ _ hW]
    exact List.drop_left' (seq_ranked_length _ _ _ _ _)

/-- Claim C19, witness: two workers on the corpus D1 = "cat dog cat",
D2 = "dog bird" with the query "cat". -/
theorem par_ranked_take_drop_witness :
    1 ≤ 2 ∧
    (SearchP.ranked roundDouble log10Chord 2 [("D1", "cat dog cat"), ("D2", "dog bird")]
        ["cat", "dog", "bird"] [] ["cat"]).take
        (positiveCount roundDouble log10Chord [("D1", "cat dog cat"), ("D2", "dog bird")]
          ["cat", "dog", "bird"] [] ["cat"])
      = Search.ranked roundDouble log10Chord [("D1", "cat dog cat"), ("D2", "dog bird")]
        ["cat", "dog", "bird"] [] ["cat"] :=
  ⟨by decide,
    (par_ranked_take_drop roundDouble log10Chord 2 (by decide) [("D1", "cat dog cat"), ("D2", "dog bird")]
      ["cat", "dog", "bird"] [] ["cat"]).2.1⟩

/-! ## Keywords that occur in every document -/

/-- A word in every document has the number of documents as its document
frequency. -/
theorem docFreq_eq_length (documents : List Document) (k : String)
    (hall : ∀ doc ∈ documents, k ∈ extractWords doc.2) :
    docFreq documents k = documents.length := by
  unfold docFreq
  rw [List.filter_eq_self.mpr (fun doc hdoc => by simpa using hall doc hdoc)]

/-- For a logarithm that vanishes at 1, a word in every document of a non-empty
corpus has the IDF value zero. -/
theorem mapFind_calculateIDF_everywhere (log10 : ℚ → ℚ) (hlog : log10 1 = 0)
    (documents : List Document) (hne : documents ≠ []) (k : String)
    (hall : ∀ doc ∈ documents, k ∈ extractWords doc.2) :
    mapFind (calculateIDF log10 documents) k = some 0 := by
  have hlen : documents.length ≠ 0 := fun h => hne (List.length_eq_zero.mp h)
  rw [mapFind_calculateIDF, docFreq_eq_length documents k hall, if_neg hlen]
  have hq : ((documents.length : ℕ) : ℚ) ≠ 0 := by exact_mod_cast hlen
  rw [div_self hq, hlog]

/-- A query whose keywords all have the IDF value zero, where they have one,
scores zero when the rounding fixes zero. -/
theorem calculateTFIDFScore_idf_zero {fl : ℚ → ℚ} (hfl0 : fl 0 = 0) (tf idf : TermTable)
    (keywords : List String)
    (h : ∀ k ∈ keywords, ∀ v, mapFind idf k = some v → v = 0) :
    calculateTFIDFScore fl tf idf keywords = 0 := by
  unfold calculateTFIDFScore
  induction keywords with
  | nil => rfl
  | cons k ks ih =>
    rw [List.foldl_cons]
    have hstep : (match mapFind tf k, mapFind idf k with
        | some t, some i => fl (0 + fl (t * i))
        | _, _ => (0 : ℚ)) = 0 := by
      cases ht : mapFind tf k with
      | none => rfl
      | some t =>
        cases hi : mapFind idf k with
        | none => rfl
        | some i =>
          have hi0 : i = 0 := h k (List.mem_cons_self k ks) i hi
          show fl (0 + fl (t * i)) = 0
          rw [hi0, mul_zero, hfl0, add_zero, hfl0]
    rw [hstep]
    exact ih (fun k' hk' => h k' (List.mem_cons_of_mem k hk'))

/-- When every document scores zero, the sequential ranked list is empty. -/
theorem seq_ranked_nil_of_scores_zero {fl : ℚ → ℚ} (log10 : ℚ → ℚ) (documents : List Document)
    (dictionary stopwords : List String) (keywords : List String)
    (hzero : ∀ i, docScore fl log10 documents dictionary stopwords keywords i = 0) :
    Search.ranked fl log10 documents dictionary stopwords keywords = [] := by
  have hscores : Search.scores fl log10 documents dictionary stopwords keywords = [] := by
    rw [seq_scores_eq]
    unfold positiveEntries
    rw [List.filterMap_eq_nil_iff]
    intro i _
    rw [hzero i]
    simp
  unfold Search.ranked
  rw [hscores]
  rfl

/-- The normalised corpus holds the normalised text of every document. -/
theorem mem_normalizedCorpus (documents : List Document) (dictionary stopwords : List String)
    (pre : Document) (hpre : pre ∈ normalizedCorpus documents dictionary stopwords) :
    ∃ doc ∈ documents, pre = (doc.1, preProcessText doc.2 dictionary stopwords) := by
  unfold normalizedCorpus at hpre
  obtain ⟨doc, hdoc, rfl⟩ := List.mem_map.mp hpre
  exact ⟨doc, hdoc, rfl⟩

/-- Claim C20. For a rounding that fixes zero, as the rounding to double and exact
arithmetic do, and a logarithm with `log10 1 = 0`: a keyword that occurs in all
`D ≥ 1` documents of a normalised corpus has `idf = 0`; under the query made of
that keyword alone every document scores 0 and the sequential ranked list is
empty; and a one-document corpus has an empty ranked list for every query. -/
theorem keyword_in_every_document (fl log10 : ℚ → ℚ) (hfl0 : fl 0 = 0)
    (hlog : log10 1 = 0) :
    (∀ (normalized : List Document) (k : String), normalized ≠ [] →
      (∀ doc ∈ normalized, k ∈ extractWords doc.2) →
      mapFind (calculateIDF log10 normalized) k = some 0) ∧
    (∀ (documents : List Document) (dictionary stopwords : List String) (k : String),
      (∀ doc ∈ documents, k ∈ extractWords (preProcessText doc.2 dictionary stopwords)) →
      (∀ i, docScore fl log10 documents dictionary stopwords [k] i = 0) ∧
      Search.ranked fl log10 documents dictionary stopwords [k] = []) ∧
    (∀ (doc : Document) (dictionary stopwords : List String) (keywords : List String),
      Search.ranked fl log10 [doc] dictionary stopwords keywords = []) := by
  refine ⟨fun normalized k hne hall =>
      mapFind_calculateIDF_everywhere log10 hlog normalized hne k hall, ?_, ?_⟩
  · intro documents dictionary stopwords k hall
    have hzero : ∀ i, docScore fl log10 documents dictionary stopwords [k] i = 0 := by
      intro i
      unfold docScore
      apply calculateTFIDFScore_idf_zero hfl0
      intro k' hk' v hv
      rw [List.mem_singleton.mp hk'] at hv
      by_cases hne : normalizedCorpus documents dictionary stopwords = []
      · rw [hne] at hv
        exact absurd hv (by simp [calculateIDF, documentFrequency, mapFind])
      · rw [mapFind_calculateIDF_everywhere log10 hlog _ hne k (by
          intro pre hpre
          obtain ⟨doc, hdoc, rfl⟩ := mem_normalizedCorpus _ _ _ _ hpre
          exact hall doc hdoc)] at hv
        exact (Option.some.inj hv).symm
    exact ⟨hzero, seq_ranked_nil_of_scores_zero _ _ _ _ _ hzero⟩
  · intro doc dictionary stopwords keywords
    apply seq_ranked_nil_of_scores_zero
    intro i
    unfold docScore
    apply calculateTFIDFScore_idf_zero hfl0
    intro k _ v hv
    rw [mapFind_calculateIDF] at hv
    split at hv
    · exact absurd hv (by simp)
    · rename_i h0
      have hle := docFreq_le_length (normalizedCorpus [doc] dictionary stopwords) k
      have hlen : (normalizedCorpus [doc] dictionary stopwords).length = 1 := rfl
      have hone : docFreq (normalizedCorpus [doc] dictionary stopwords) k = 1 := by omega
      rw [hone, hlen] at hv
      rw [← Option.some.inj hv]
      simpa using hlog

/-- The stand-in logarithm vanishes at 1. -/
theorem log10Chord_one : log10Chord 1 = 0 := by
  unfold log10Chord
  norm_num

/-- Claim C20, witness: the rounding to double, the stand-in logarithm and the
keyword "dog", which occurs in both documents of the corpus "cat dog cat ",
"dog bird ". -/
theorem keyword_in_every_document_witness :
    roundDouble 0 = 0 ∧
    log10Chord 1 = 0 ∧
    mapFind (calculateIDF log10Chord [("D1", "cat dog cat "), ("D2", "dog bird ")]) "dog"
      = some 0 ∧
    Search.ranked roundDouble log10Chord [("D1", "cat dog cat"), ("D2", "dog bird")]
      ["cat", "dog", "bird"] [] ["dog"] = [] :=
  ⟨roundDouble_zero, log10Chord_one,
    (keyword_in_every_document roundDouble log10Chord roundDouble_zero log10Chord_one).1
      [("D1", "cat dog cat "), ("D2", "dog bird ")] "dog" (by decide) (by decide),
    ((keyword_in_every_document roundDouble log10Chord roundDouble_zero log10Chord_one).2.1
      [("D1", "cat dog cat"), ("D2", "dog bird")] ["cat", "dog", "bird"] [] "dog"
      (by decide)).2⟩

/-! ## Normalising a normalised text -/

/-- A lowercased letter is a lower-case letter: it is numbered 97-122. -/
theorem tolower_range_of_isalpha (c : Char) (h : isalpha c = true) :
    97 ≤ (tolower c).toNat ∧ (tolower c).toNat ≤ 122 := by
  rw [isalpha_iff] at h
  unfold tolower Char.toLower
  simp only [ge_iff_le]
  split
  · have hn := toNat_ofNat_lower (c.toNat + 32) (by omega) (by omega)
    rw [hn]
    omega
  · omega

/-- A lowercased letter is a letter that lowercasing leaves alone. -/
theorem tolower_fixed_of_isalpha (c : Char) (h : isalpha c = true) :
    isalpha (tolower c) = true ∧ tolower (tolower c) = tolower c := by
  obtain ⟨h1, h2⟩ := tolower_range_of_isalpha c h
  constructor
  · rw [isalpha_iff]
    exact Or.inr ⟨h1, h2⟩
  · generalize tolower c = d at h1 h2
    unfold tolower Char.toLower
    simp only [ge_iff_le]
    rw [if_neg (by omega)]

/-- A surviving token is a non-empty word of lower-case letters that passes the
vocabulary filter. -/
theorem survivingTokens_lowercase (text : String) (dictionary stopwords : List String)
    (w : String) (hw : w ∈ survivingTokens text dictionary stopwords) :
    w ≠ "" ∧ (∀ c ∈ w.data, isalpha c = true ∧ tolower c = c) ∧
      (w ∈ dictionary ∧ w ∉ stopwords) := by
  refine ⟨(survivingTokens_wellformed text dictionary stopwords w hw).1, ?_, ?_⟩
  · unfold survivingTokens alphaRuns at hw
    obtain ⟨hmem, -⟩ := List.mem_filter.mp hw
    obtain ⟨r, hr, rfl⟩ := List.mem_map.mp hmem
    obtain ⟨hr1, -⟩ := List.mem_filter.mp hr
    intro c hc
    simp only [lowerRun, List.mem_map] at hc
    obtain ⟨x, hx, rfl⟩ := hc
    have hsep := splitOnP_pieces (fun c => !isalpha c) text.toList r hr1 x hx
    exact tolower_fixed_of_isalpha x (by simpa using hsep)
  · unfold survivingTokens at hw
    have hs := (List.mem_filter.mp hw).2
    simpa [survives] using hs

/-- Normalising a stretch of lower-case letters extends the word in progress by
that stretch. -/
theorem preProcess_word (dictionary stopwords : List String) (w rest : List Char)
    (cl cur : String) (hw : ∀ c ∈ w, isalpha c = true ∧ tolower c = c) :
    (w ++ rest).foldl (preProcessStep dictionary stopwords) (cl, cur)
      = rest.foldl (preProcessStep dictionary stopwords) (cl, cur ++ String.mk w) := by
  induction w generalizing cur with
  | nil =>
    have : cur ++ String.mk [] = cur := by
      apply String.ext
      simp
    simp [this]
  | cons c w ih =>
    obtain ⟨hc, hlow⟩ := hw c (List.mem_cons_self _ _)
    have hstep : preProcessStep dictionary stopwords (cl, cur) c = (cl, cur.push c) := by
      simp [preProcessStep, hc, hlow]
    rw [List.cons_append, List.foldl_cons, hstep,
      ih _ (fun x hx => hw x (List.mem_cons_of_mem _ hx))]
    congr 2
    apply String.ext
    simp

/-- Normalising space-terminated lower-case vocabulary tokens appends that very
text to the result and leaves no word in progress. -/
theorem preProcess_spaceTerminated (dictionary stopwords : List String) (ts : List String)
    (cl : String)
    (hts : ∀ t ∈ ts, t ≠ "" ∧ (∀ c ∈ t.data, isalpha c = true ∧ tolower c = c) ∧
      (t ∈ dictionary ∧ t ∉ stopwords)) :
    (spaceTerminated ts).data.foldl (preProcessStep dictionary stopwords) (cl, "")
      = (cl ++ spaceTerminated ts, "") := by
  induction ts generalizing cl with
  | nil => simp [spaceTerminated]
  | cons t ts ih =>
    obtain ⟨hne, hlow, hkeep⟩ := hts t (List.mem_cons_self _ _)
    have hdata : (spaceTerminated (t :: ts)).data
        = t.data ++ (' ' :: (spaceTerminated ts).data) := by
      simp [spaceTerminated, String.data_append]
    rw [hdata, preProcess_word dictionary stopwords t.data _ cl "" hlow, List.foldl_cons]
    have ht : "" ++ String.mk t.data = t := by
      apply String.ext
      simp
    rw [ht]
    have hstep : preProcessStep dictionary stopwords (cl, t) ' '
        = (cl ++ (t ++ " "), "") := by
      have hspace : isalpha ' ' = false := by decide
      simp [preProcessStep, hspace, hne, flushWord, hkeep]
    rw [hstep, ih _ (fun x hx => hts x (List.mem_cons_of_mem _ hx))]
    simp [spaceTerminated, String.append_assoc]

/-- Claim C21. The normaliser is idempotent: normalising a normalised text with
the same vocabulary and stopword set returns it unchanged. -/
theorem preProcessText_idempotent (text : String) (dictionary stopwords : List String) :
    preProcessText (preProcessText text dictionary stopwords) dictionary stopwords
      = preProcessText text dictionary stopwords := by
  rw [preProcessText_eq_spaceTerminated text dictionary stopwords]
  have hfold := preProcess_spaceTerminated dictionary stopwords
    (survivingTokens text dictionary stopwords) ""
    (survivingTokens_lowercase text dictionary stopwords)
  unfold preProcessText
  simp only [String.toList]
  rw [hfold]
  simp
